import Mathlib

set_option linter.unusedSectionVars false

/-!
Shallow embedding of the `postflow` package's in-memory post store
(`InMemoryPostStore` and `PostManagerImpl`).

Go maps are modelled as association lists; the model iterates them in
insertion order (Go's iteration order is unspecified).  `time.Time` is
modelled as `Int` (instants, compared with `<`);  Go `int` fields are
modelled as `Int`; the `ReactionType` byte is modelled as `Nat`.  A Go
`nil` map is distinguished from an empty map with `Option`.  Errors are
modelled with an explicit `Err` type.
-/

/-- MediaType byte of a media item (`postflow.MediaType`). -/
abbrev MediaType := Nat

/-- Media item attached to a post (`postflow.Media`). -/
structure Media where
  id : String
  type : MediaType
  url : String
  thumbnailURL : String
  description : String
  width : Int
  height : Int
  duration : Int
  fileSize : Int
  fileName : String
  mimeType : String
  createdAt : Int
deriving DecidableEq

/-- User post (`postflow.Post`).  `reactions` is `none` when the Go map is
`nil`; reads on a `nil` map yield 0. -/
structure Post where
  id : String
  userID : String
  content : String
  media : List Media
  tags : List String
  createdAt : Int
  updatedAt : Int
  reactions : Option (List (Nat × Int))
  comments : Int
  shares : Int
  visibility : String
deriving DecidableEq

/-- Time range of a `PostFilter` (`postflow.TimeRange`). -/
structure TimeRange where
  start : Int
  stop : Int
deriving DecidableEq

/-- Filtering options for `ListPosts` (`postflow.PostFilter`). -/
structure PostFilter where
  userID : String
  tags : List String
  timeRange : Option TimeRange
  visibility : String
  limit : Int
  offset : Int
  sortBy : String
  sortOrder : String
deriving DecidableEq

/-- A user's reaction to a post (`postflow.UserReaction`). -/
structure UserReaction where
  userID : String
  reactionType : Nat
  createdAt : Int
deriving DecidableEq

/-- Errors returned by the store and the manager (`ErrPostNotFound`,
`ErrPermissionDenied`, `ErrInvalidReaction`, and the manager's
"user ID is required"). -/
inductive Err where
  | postNotFound
  | permissionDenied
  | invalidReaction
  | userIDRequired
deriving DecidableEq

/-- In-memory store state (`postflow.InMemoryPostStore`), maps modelled as
association lists in insertion order. -/
structure Store where
  posts : List (String × Post)
  reactions : List (String × List (String × UserReaction))
  userPosts : List (String × List String)
  tagPosts : List (String × List String)
deriving DecidableEq

/-- The store produced by `NewInMemoryPostStore`: all maps empty. -/
def emptyStore : Store := ⟨[], [], [], []⟩

/-- Go map assignment `m[k] = v` on an association list: replace the
entry if the key is present, append it otherwise. -/
def setA {κ α : Type} [BEq κ] (m : List (κ × α)) (k : κ) (v : α) : List (κ × α) :=
  if m.any (fun e => e.1 == k) then
    m.map (fun e => if e.1 == k then (k, v) else e)
  else m ++ [(k, v)]

/-- Go read `m[k]` on a `map[string][]string`: missing keys give `nil`,
i.e. the empty list. -/
def getL (m : List (String × List String)) (k : String) : List String :=
  (m.lookup k).getD []

/-- Go read `m[k]` on a `map[ReactionType]int`: missing keys give 0. -/
def getR (m : List (Nat × Int)) (k : Nat) : Int :=
  (m.lookup k).getD 0

/-- Read of a possibly-`nil` reactions map: `nil` behaves as empty. -/
def getRx (r : Option (List (Nat × Int))) (k : Nat) : Int :=
  getR (r.getD []) k

/-- The ledger rows stored for one post (`s.reactions[postID]`), the
empty map when the post has no entry. -/
def rowsFor (s : Store) (postID : String) : List (String × UserReaction) :=
  (s.reactions.lookup postID).getD []

/-- SavePost's insert path: append the post ID to every tag's index list,
once per occurrence of the tag. -/
def addTagRefs (tp : List (String × List String)) (pid : String) :
    List String → List (String × List String)
  | [] => tp
  | t :: ts => addTagRefs (setA tp t (getL tp t ++ [pid])) pid ts

/-- SavePost's update path, removal phase: drop the first index entry for
the post ID from every old tag's list. -/
def removeTagRefs (tp : List (String × List String)) (pid : String) :
    List String → List (String × List String)
  | [] => tp
  | t :: ts => removeTagRefs (setA tp t ((getL tp t).erase pid)) pid ts

/-- SavePost's update path, insertion phase: append the post ID to every
new tag's list unless it is already there. -/
def addTagRefsIfAbsent (tp : List (String × List String)) (pid : String) :
    List String → List (String × List String)
  | [] => tp
  | t :: ts =>
    if (getL tp t).contains pid then addTagRefsIfAbsent tp pid ts
    else addTagRefsIfAbsent (setA tp t (getL tp t ++ [pid])) pid ts

/-- `InMemoryPostStore.SavePost`.  The in-memory implementation never
returns an error. -/
def savePost (s : Store) (post : Post) : Store :=
  match s.posts.lookup post.id with
  | none =>
    { s with
      posts := s.posts ++ [(post.id, post)]
      userPosts := setA s.userPosts post.userID (getL s.userPosts post.userID ++ [post.id])
      tagPosts := addTagRefs s.tagPosts post.id post.tags }
  | some oldPost =>
    { s with
      posts := setA s.posts post.id post
      tagPosts := addTagRefsIfAbsent (removeTagRefs s.tagPosts post.id oldPost.tags)
        post.id post.tags }

/-- `InMemoryPostStore.GetPost` (the returned copy is the stored value). -/
def getPost (s : Store) (postID : String) : Except Err Post :=
  match s.posts.lookup postID with
  | none => .error .postNotFound
  | some p => .ok p

/-- `InMemoryPostStore.DeletePost`. -/
def deletePost (s : Store) (postID userID : String) : Except Err Unit × Store :=
  match s.posts.lookup postID with
  | none => (.error .postNotFound, s)
  | some post =>
    if post.userID ≠ userID then (.error .permissionDenied, s)
    else
      (.ok (),
        { posts := s.posts.filter (fun e => e.1 ≠ postID)
          reactions := s.reactions.filter (fun e => e.1 ≠ postID)
          userPosts := setA s.userPosts userID ((getL s.userPosts userID).erase postID)
          tagPosts := removeTagRefs s.tagPosts postID post.tags })

/-- Helper `sumReactions`: sum of the values of a reaction-count map
(0 for a `nil` map). -/
def sumReactions (r : Option (List (Nat × Int))) : Int :=
  ((r.getD []).map (fun e => e.2)).sum

/-- Candidate post IDs selected by `ListPosts` before the secondary
filters; `none` means "no user or tag filter: all posts". -/
def candidateIDs (s : Store) (f : PostFilter) : Option (List String) :=
  let userCands : Option (List String) :=
    if f.userID ≠ "" then some (getL s.userPosts f.userID) else none
  if f.tags.length ≠ 0 then
    some ((f.tags.enum.map (fun it =>
      (getL s.tagPosts it.2).filter (fun pid =>
        it.1 == 0 || (userCands.getD []).contains pid))).flatten)
  else userCands

/-- Visibility and time-range filters of `ListPosts` (a post is kept iff
this returns `true`). -/
def passesFilters (f : PostFilter) (p : Post) : Bool :=
  (f.visibility == "" || p.visibility == f.visibility)
  && (match f.timeRange with
      | none => true
      | some tr => tr.start < p.createdAt && p.createdAt < tr.stop)

/-- The unsorted result of `ListPosts`: candidate posts (in store order)
passing the visibility and time-range filters. -/
def listCandidates (s : Store) (f : PostFilter) : List Post :=
  let base : List Post :=
    match candidateIDs s f with
    | none => s.posts.map (fun e => e.2)
    | some cands => (s.posts.filter (fun e => cands.contains e.1)).map (fun e => e.2)
  base.filter (passesFilters f)

/-- Sort key of `ListPosts`'s `sort.Slice` comparator: the switch on
`filter.SortBy`, whose default case falls back to `created_at`. -/
def sortKey (sortBy : String) (p : Post) : Int :=
  match sortBy with
  | "created_at" => p.createdAt
  | "updated_at" => p.updatedAt
  | "reactions" => sumReactions p.reactions
  | "comments" => p.comments
  | "shares" => p.shares
  | _ => p.createdAt

/-- The sorting step of `ListPosts`: no sort at all when `SortBy` is
empty, otherwise sort by the selected key, descending when `SortOrder`
is `"desc"`.  `sort.Slice`'s order among equal keys is unspecified; the
model fixes it with an insertion sort. -/
def sortPosts (f : PostFilter) (l : List Post) : List Post :=
  if f.sortBy = "" then l
  else if f.sortOrder = "desc" then
    l.insertionSort (fun a b => sortKey f.sortBy b ≤ sortKey f.sortBy a)
  else
    l.insertionSort (fun a b => sortKey f.sortBy a ≤ sortKey f.sortBy b)

/-- The pagination step of `ListPosts` (and `GetUserFeed`): applied only
when `limit > 0`.  Go would panic on a negative offset; the claims only
involve non-negative offsets. -/
def paginate {α : Type} (limit offset : Int) (l : List α) : List α :=
  if 0 < limit then
    if offset < (l.length : Int) then
      (l.take (min (offset + limit) (l.length : Int)).toNat).drop offset.toNat
    else []
  else l

/-- `InMemoryPostStore.ListPosts` (it never returns an error). -/
def listPosts (s : Store) (f : PostFilter) : List Post :=
  paginate f.limit f.offset (sortPosts f (listCandidates s f))

/-- All public posts, in store order (the loop over `s.posts` shared by
`GetUserFeed` and `GetTrendingPosts`). -/
def publicPosts (s : Store) : List Post :=
  (s.posts.map (fun e => e.2)).filter (fun p => p.visibility == "public")

/-- Engagement score used by `GetTrendingPosts`:
`sumReactions + comments + shares`. -/
def engagement (p : Post) : Int :=
  sumReactions p.reactions + p.comments + p.shares

/-- `InMemoryPostStore.GetTrendingPosts`: public posts sorted by
descending engagement, truncated when `0 < limit < len`. -/
def getTrendingPosts (s : Store) (limit : Int) : List Post :=
  let result := (publicPosts s).insertionSort (fun a b => engagement b ≤ engagement a)
  if 0 < limit ∧ limit < (result.length : Int) then result.take limit.toNat else result

/-- `InMemoryPostStore.SaveReaction`; `now` stands for `time.Now()`. -/
def saveReaction (s : Store) (postID userID : String) (k : Nat) (now : Int) :
    Except Err Unit × Store :=
  match s.posts.lookup postID with
  | none => (.error .postNotFound, s)
  | some post =>
    if k ≤ 0 ∨ 6 < k then (.error .invalidReaction, s)
    else
      let pr := rowsFor s postID
      match pr.lookup userID with
      | some existing =>
        if existing.reactionType = k then
          (.ok (), { s with reactions := setA s.reactions postID pr })
        else
          let r0 := post.reactions.getD []
          let oldCount := getR r0 existing.reactionType
          let r1 := if 0 < oldCount then setA r0 existing.reactionType (oldCount - 1) else r0
          let r2 := setA r1 k (getR r1 k + 1)
          (.ok (),
            { s with
              posts := setA s.posts postID { post with reactions := some r2 }
              reactions := setA s.reactions postID (setA pr userID ⟨userID, k, now⟩) })
      | none =>
        let r0 := post.reactions.getD []
        let r1 := setA r0 k (getR r0 k + 1)
        (.ok (),
          { s with
            posts := setA s.posts postID { post with reactions := some r1 }
            reactions := setA s.reactions postID (setA pr userID ⟨userID, k, now⟩) })

/-- `InMemoryPostStore.DeleteReaction`. -/
def deleteReaction (s : Store) (postID userID : String) (k : Nat) :
    Except Err Unit × Store :=
  match s.posts.lookup postID with
  | none => (.error .postNotFound, s)
  | some post =>
    match s.reactions.lookup postID with
    | none => (.ok (), s)
    | some pr =>
      match pr.lookup userID with
      | none => (.ok (), s)
      | some ur =>
        if ur.reactionType ≠ k then (.ok (), s)
        else
          let r' : Option (List (Nat × Int)) :=
            match post.reactions with
            | none => none
            | some m => if 0 < getR m k then some (setA m k (getR m k - 1)) else some m
          (.ok (),
            { s with
              posts := setA s.posts postID { post with reactions := r' }
              reactions := setA s.reactions postID (pr.filter (fun e => e.1 ≠ userID)) })

/-- `PostManagerImpl.CreatePost`; `freshID` stands for `uuid.New()` and
`now` for `time.Now()`.  The in-memory `SavePost` never fails. -/
def createPost (s : Store) (post : Post) (freshID : String) (now : Int) :
    Except Err String × Store :=
  if post.userID = "" then (.error .userIDRequired, s)
  else
    let post := if post.id = "" then { post with id := freshID } else post
    let post := { post with createdAt := now, updatedAt := now }
    let post := if post.reactions = none then { post with reactions := some [] } else post
    (.ok post.id, savePost s post)

/-- Index invariant, working form: an ID is listed in the user index
under `u` iff a post with that ID exists and is owned by `u`; an ID is
listed in the tag index under `t` iff a post with that ID exists and
carries tag `t`; no index list repeats an ID; all map keys are unique. -/
def IdxInv (s : Store) : Prop :=
  (s.posts.map Prod.fst).Nodup ∧
  (s.userPosts.map Prod.fst).Nodup ∧
  (s.tagPosts.map Prod.fst).Nodup ∧
  (∀ u pid, pid ∈ getL s.userPosts u ↔ ∃ p, s.posts.lookup pid = some p ∧ p.userID = u) ∧
  (∀ t pid, pid ∈ getL s.tagPosts t ↔ ∃ p, s.posts.lookup pid = some p ∧ t ∈ p.tags) ∧
  (∀ u, (getL s.userPosts u).Nodup) ∧
  (∀ t, (getL s.tagPosts t).Nodup)

/-- Reachability exactly as claim C2 words it: any sequence of
`SavePost` and `DeletePost` operations from the empty store. -/
inductive ReachSD : Store → Prop where
  | empty : ReachSD emptyStore
  | save {s : Store} (post : Post) : ReachSD s → ReachSD (savePost s post)
  | delete {s : Store} (pid uid : String) : ReachSD s → ReachSD (deletePost s pid uid).2

/-- Reachability by `SavePost` and `DeletePost`, restricted as the
amended claim C2 requires: a `SavePost` that creates a new post carries a
duplicate-free tag list, and a `SavePost` that updates an existing post
keeps its `UserID`. -/
inductive ReachIdx : Store → Prop where
  | empty : ReachIdx emptyStore
  | save {s : Store} (post : Post) : ReachIdx s →
      (s.posts.lookup post.id = none → post.tags.Nodup) →
      (∀ old, s.posts.lookup post.id = some old → old.userID = post.userID) →
      ReachIdx (savePost s post)
  | delete {s : Store} (pid uid : String) : ReachIdx s → ReachIdx (deletePost s pid uid).2

/-- A post with a duplicated tag, used to exhibit a duplicate index entry. -/
def postDupTags : Post :=
  { id := "p1", userID := "u1", content := "", media := [], tags := ["a", "a"],
    createdAt := 0, updatedAt := 0, reactions := none, comments := 0, shares := 0,
    visibility := "public" }

/-- A plain post (duplicate-free tags), used in witnesses. -/
def postPlain : Post :=
  { id := "p1", userID := "u1", content := "hello", media := [], tags := ["a", "b"],
    createdAt := 1, updatedAt := 1, reactions := none, comments := 0, shares := 0,
    visibility := "public" }

/-- Number of ledger rows of reaction kind `k` among `rows`. -/
def rowCount (rows : List (String × UserReaction)) (k : Nat) : Nat :=
  rows.countP (fun row => row.2.reactionType == k)

/-- Coherence of a post's reaction-count map with a ledger-row list: the
map's keys are unique, every entry holds exactly the number of rows of
its kind, and every row's kind has an entry in the map. -/
def RCoh (rows : List (String × UserReaction)) (r : Option (List (Nat × Int))) : Prop :=
  ((r.getD []).map Prod.fst).Nodup ∧
  (∀ e ∈ r.getD [], e.2 = (rowCount rows e.1 : Int)) ∧
  (∀ row ∈ rows, row.2.reactionType ∈ (r.getD []).map Prod.fst)

instance (rows : List (String × UserReaction)) (r : Option (List (Nat × Int))) :
    Decidable (RCoh rows r) := by
  unfold RCoh
  infer_instance

/-- Reaction-ledger invariant: unique outer and inner map keys, no
ledger entry without its post, and every stored post's reaction counts
cohere with its ledger rows. -/
def RInv (s : Store) : Prop :=
  (s.posts.map Prod.fst).Nodup ∧
  (s.reactions.map Prod.fst).Nodup ∧
  (∀ e ∈ s.reactions, (e.2.map Prod.fst).Nodup) ∧
  (∀ e ∈ s.reactions, e.2 ≠ [] → e.1 ∈ s.posts.map Prod.fst) ∧
  (∀ kv ∈ s.posts, RCoh (rowsFor s kv.1) kv.2.reactions)

/-- Reachability exactly as claim C3 words it: any sequence of SavePost,
DeletePost, SaveReaction and DeleteReaction from the empty store. -/
inductive ReachOps : Store → Prop where
  | empty : ReachOps emptyStore
  | save {s : Store} (post : Post) : ReachOps s → ReachOps (savePost s post)
  | delete {s : Store} (pid uid : String) : ReachOps s → ReachOps (deletePost s pid uid).2
  | react {s : Store} (pid uid : String) (k : Nat) (now : Int) : ReachOps s →
      ReachOps (saveReaction s pid uid k now).2
  | unreact {s : Store} (pid uid : String) (k : Nat) : ReachOps s →
      ReachOps (deleteReaction s pid uid k).2

/-- Reachability restricted as amended claim C3 requires: every SavePost
carries a reaction map coherent with the ledger rows currently stored
for its ID (in particular summing to zero for a fresh post). -/
inductive ReachR : Store → Prop where
  | empty : ReachR emptyStore
  | save {s : Store} (post : Post) : ReachR s →
      RCoh (rowsFor s post.id) post.reactions → ReachR (savePost s post)
  | delete {s : Store} (pid uid : String) : ReachR s → ReachR (deletePost s pid uid).2
  | react {s : Store} (pid uid : String) (k : Nat) (now : Int) : ReachR s →
      ReachR (saveReaction s pid uid k now).2
  | unreact {s : Store} (pid uid : String) (k : Nat) : ReachR s →
      ReachR (deleteReaction s pid uid k).2

/-- A post whose reaction map is pre-filled with 5 likes, with no
matching ledger rows. -/
def postPreloaded : Post :=
  { id := "p1", userID := "u1", content := "", media := [], tags := [],
    createdAt := 0, updatedAt := 0, reactions := some [(1, 5)], comments := 0,
    shares := 0, visibility := "public" }

/-- The stored form of `postPlain` after user `"alice"` likes it. -/
def postPlainLiked : Post := { postPlain with reactions := some [(1, 1)] }

/-- The stored form of `postPlain` after `"alice"` switches her like to
a love reaction. -/
def postPlainSwitched : Post := { postPlain with reactions := some [(1, 0), (2, 1)] }

/-- A minimal public post with the given ID and creation instant. -/
def simplePost (id : String) (c : Int) : Post :=
  { id := id, userID := "u1", content := "", media := [], tags := [],
    createdAt := c, updatedAt := c, reactions := none, comments := 0, shares := 0,
    visibility := "public" }

/-- Post `"p1"` carrying only tag `"a"`. -/
def postTagA : Post := { simplePost "p1" 1 with tags := ["a"] }

/-- Post `"p2"` carrying tags `"a"` and `"b"`. -/
def postTagAB : Post := { simplePost "p2" 2 with tags := ["a", "b"] }

/-- Store holding `postTagA` and `postTagAB`. -/
def storeTags : Store := savePost (savePost emptyStore postTagA) postTagAB

/-- Filter requesting both tags `"a"` and `"b"` and nothing else. -/
def fltTags : PostFilter := ⟨"", ["a", "b"], none, "", 0, 0, "", ""⟩

/-- Store holding two posts inserted in decreasing creation order. -/
def storeDesc : Store := savePost (savePost emptyStore (simplePost "pd1" 5)) (simplePost "pd2" 3)

/-- The all-default filter: no filters, no sort, no pagination. -/
def fltEmpty : PostFilter := ⟨"", [], none, "", 0, 0, "", ""⟩

/-- A filter with no limit (0) but a positive offset. -/
def fltSkip : PostFilter := ⟨"", [], none, "", 0, 5, "", ""⟩

/-- A filter sorting by creation time, descending. -/
def fltDesc : PostFilter := ⟨"", [], none, "", 0, 0, "created_at", "desc"⟩

/-- An eight-post store for the pagination witness. -/
def storeEight : Store :=
  (List.range 8).foldl (fun st i => savePost st (simplePost (toString i) (Int.ofNat i))) emptyStore

/-- The first pagination page: limit 3, offset 0. -/
def fltPage : PostFilter := ⟨"", [], none, "", 3, 0, "", ""⟩

/-- A public post with 11 comments (engagement 11). -/
def postMild : Post := { simplePost "pm" 9 with comments := 11 }

/-- A public post with 33 comments (engagement 33), created later. -/
def postHot : Post := { simplePost "ph" 10 with comments := 33 }

/-- Store holding `postMild` then `postHot`. -/
def storeTrend : Store := savePost (savePost emptyStore postMild) postHot

/-! ### Association-list lemmas -/

section AssocLemmas

variable {κ α : Type} [BEq κ] [LawfulBEq κ]

theorem lookup_isSome_eq_any (m : List (κ × α)) (k : κ) :
    (m.lookup k).isSome = m.any (fun e => e.1 == k) := by
  induction m with
  | nil => rfl
  | cons e es ih =>
    obtain ⟨a, b⟩ := e
    by_cases h : k = a
    · simp [List.lookup_cons, h]
    · have h1 : (k == a) = false := beq_eq_false_iff_ne.mpr h
      have h2 : (a == k) = false := beq_eq_false_iff_ne.mpr (Ne.symm h)
      simp [List.lookup_cons, h1, h2, ih]

theorem lookup_eq_none_iff_any {m : List (κ × α)} {k : κ} :
    m.lookup k = none ↔ m.any (fun e => e.1 == k) = false := by
  rw [← lookup_isSome_eq_any]
  cases m.lookup k <;> simp

theorem not_mem_keys_iff_any {m : List (κ × α)} {k : κ} :
    k ∉ m.map Prod.fst ↔ m.any (fun e => e.1 == k) = false := by
  constructor
  · intro h
    rw [List.any_eq_false]
    intro e he hk
    exact h (List.mem_map.mpr ⟨e, he, beq_iff_eq.mp hk⟩)
  · intro h hk
    rcases List.mem_map.mp hk with ⟨e, he, rfl⟩
    rw [List.any_eq_false] at h
    exact absurd (beq_self_eq_true e.1) (h e he)

theorem lookup_eq_none_iff_keys {m : List (κ × α)} {k : κ} :
    m.lookup k = none ↔ k ∉ m.map Prod.fst :=
  lookup_eq_none_iff_any.trans not_mem_keys_iff_any.symm

theorem mem_of_lookup_eq_some {m : List (κ × α)} {k : κ} {v : α}
    (h : m.lookup k = some v) : (k, v) ∈ m := by
  induction m with
  | nil => exact Option.noConfusion h
  | cons e es ih =>
    obtain ⟨a, b⟩ := e
    by_cases hk : k = a
    · subst hk
      simp only [List.lookup_cons, beq_self_eq_true] at h
      cases h
      exact List.mem_cons_self _ _
    · have : (k == a) = false := beq_eq_false_iff_ne.mpr hk
      simp only [List.lookup_cons, this] at h
      exact List.mem_cons_of_mem _ (ih h)

theorem lookup_eq_some_of_mem {m : List (κ × α)} {k : κ} {v : α}
    (hnd : (m.map Prod.fst).Nodup) (hm : (k, v) ∈ m) : m.lookup k = some v := by
  induction m with
  | nil => exact absurd hm (List.not_mem_nil _)
  | cons e es ih =>
    obtain ⟨a, b⟩ := e
    simp only [List.map_cons, List.nodup_cons] at hnd
    rcases List.mem_cons.mp hm with h | h
    · cases h
      simp [List.lookup_cons]
    · have hk : k ≠ a := by
        rintro rfl
        exact hnd.1 (List.mem_map.mpr ⟨(k, v), h, rfl⟩)
      have : (k == a) = false := beq_eq_false_iff_ne.mpr hk
      simp only [List.lookup_cons, this]
      exact ih hnd.2 h

theorem lookup_append_of_none {m l : List (κ × α)} {k : κ}
    (h : m.lookup k = none) : (m ++ l).lookup k = l.lookup k := by
  induction m with
  | nil => rfl
  | cons e es ih =>
    obtain ⟨a, b⟩ := e
    by_cases hk : (k == a) = true
    · simp [List.lookup_cons, hk] at h
    · have hk' : (k == a) = false := Bool.eq_false_iff.mpr hk
      simp only [List.lookup_cons, hk'] at h
      simpa [List.lookup_cons, hk'] using ih h

theorem lookup_append_of_some {m l : List (κ × α)} {k : κ} {v : α}
    (h : m.lookup k = some v) : (m ++ l).lookup k = some v := by
  induction m with
  | nil => exact Option.noConfusion h
  | cons e es ih =>
    obtain ⟨a, b⟩ := e
    by_cases hk : (k == a) = true
    · simp only [List.cons_append, List.lookup_cons, hk] at h ⊢
      exact h
    · have hk' : (k == a) = false := Bool.eq_false_iff.mpr hk
      simp only [List.cons_append, List.lookup_cons, hk'] at h ⊢
      exact ih h

theorem setA_of_lookup_eq_none {m : List (κ × α)} {k : κ}
    (h : m.lookup k = none) (v : α) : setA m k v = m ++ [(k, v)] := by
  unfold setA
  rw [if_neg]
  rw [lookup_eq_none_iff_any] at h
  simp [h]

theorem lookup_map_subst_self {m : List (κ × α)} {k : κ} (v : α)
    (h : m.any (fun e => e.1 == k) = true) :
    (m.map (fun e => if e.1 == k then (k, v) else e)).lookup k = some v := by
  induction m with
  | nil => simp at h
  | cons e es ih =>
    obtain ⟨a, b⟩ := e
    by_cases he : a = k
    · subst he
      simp [List.lookup_cons]
    · have hne : (a == k) = false := beq_eq_false_iff_ne.mpr he
      have hkq : (k == a) = false := beq_eq_false_iff_ne.mpr (Ne.symm he)
      simp only [List.any_cons, hne, Bool.false_or] at h
      simp [List.lookup_cons, hne, hkq, ih h]

theorem lookup_map_subst_ne {m : List (κ × α)} {k q : κ} (v : α) (h : q ≠ k) :
    (m.map (fun e => if e.1 == k then (k, v) else e)).lookup q = m.lookup q := by
  induction m with
  | nil => rfl
  | cons e es ih =>
    obtain ⟨a, b⟩ := e
    by_cases he : a = k
    · subst he
      have hq : (q == a) = false := beq_eq_false_iff_ne.mpr h
      simp [List.lookup_cons, hq, ih]
    · have hne : (a == k) = false := beq_eq_false_iff_ne.mpr he
      by_cases hq : q = a
      · subst hq
        simp [List.lookup_cons, hne]
      · have hq' : (q == a) = false := beq_eq_false_iff_ne.mpr hq
        simp [List.lookup_cons, hne, hq', ih]

theorem lookup_setA_self (m : List (κ × α)) (k : κ) (v : α) :
    (setA m k v).lookup k = some v := by
  unfold setA
  split
  · exact lookup_map_subst_self v (by assumption)
  · next hany =>
    rw [lookup_append_of_none
      (lookup_eq_none_iff_any.mpr (Bool.eq_false_iff.mpr hany))]
    simp [List.lookup_cons]

theorem lookup_setA_ne (m : List (κ × α)) {k q : κ} (v : α) (h : q ≠ k) :
    (setA m k v).lookup q = m.lookup q := by
  unfold setA
  split
  · exact lookup_map_subst_ne v h
  · have hq : (q == k) = false := beq_eq_false_iff_ne.mpr h
    cases hl : m.lookup q with
    | none => simp [lookup_append_of_none hl, hl, List.lookup_cons, hq]
    | some w => simp [lookup_append_of_some hl, hl]

theorem keys_map_subst {m : List (κ × α)} {k : κ} (v : α) :
    (m.map (fun e => if e.1 == k then (k, v) else e)).map Prod.fst = m.map Prod.fst := by
  rw [List.map_map]
  apply List.map_congr_left
  intro e _
  by_cases he : e.1 = k
  · simp [he]
  · simp [beq_eq_false_iff_ne.mpr he]

theorem keys_setA (m : List (κ × α)) (k : κ) (v : α) :
    (setA m k v).map Prod.fst =
      if m.any (fun e => e.1 == k) then m.map Prod.fst else m.map Prod.fst ++ [k] := by
  unfold setA
  split
  · exact keys_map_subst v
  · simp

theorem mem_keys_of_any {m : List (κ × α)} {k : κ}
    (h : m.any (fun e => e.1 == k) = true) : k ∈ m.map Prod.fst := by
  by_contra hk
  rw [not_mem_keys_iff_any.mp hk] at h
  exact Bool.false_ne_true h

theorem keysNodup_setA {m : List (κ × α)} (k : κ) (v : α)
    (h : (m.map Prod.fst).Nodup) : ((setA m k v).map Prod.fst).Nodup := by
  rw [keys_setA]
  split
  · exact h
  · next hany =>
    have hk := not_mem_keys_iff_any.mpr (Bool.eq_false_iff.mpr hany)
    simp [List.nodup_append, h, hk]

theorem mem_keys_setA {m : List (κ × α)} {k : κ} (v : α) (q : κ) :
    q ∈ (setA m k v).map Prod.fst ↔ q ∈ m.map Prod.fst ∨ q = k := by
  rw [keys_setA]
  split
  · next h =>
    constructor
    · exact Or.inl
    · rintro (hq | rfl)
      · exact hq
      · exact mem_keys_of_any h
  · simp

end AssocLemmas

/-! ### `getL` / `getR` corollaries -/

theorem getL_setA (m : List (String × List String)) (k k' : String) (v : List String) :
    getL (setA m k v) k' = if k' = k then v else getL m k' := by
  unfold getL
  split
  · next h => rw [h, lookup_setA_self]; rfl
  · next h => rw [lookup_setA_ne m v h]

theorem getR_setA (m : List (Nat × Int)) (k k' : Nat) (v : Int) :
    getR (setA m k v) k' = if k' = k then v else getR m k' := by
  unfold getR
  split
  · next h => rw [h, lookup_setA_self]; rfl
  · next h => rw [lookup_setA_ne m v h]

theorem getL_eq_nil_of_lookup_none {m : List (String × List String)} {k : String}
    (h : m.lookup k = none) : getL m k = [] := by
  unfold getL
  rw [h]
  rfl

/-! ### Tag-index fold lemmas -/

theorem addTagRefs_getL (tp : List (String × List String)) (pid : String)
    (tags : List String) (t : String) :
    getL (addTagRefs tp pid tags) t = getL tp t ++ List.replicate (tags.count t) pid := by
  induction tags generalizing tp with
  | nil => simp [addTagRefs]
  | cons a ts ih =>
    rw [addTagRefs, ih, getL_setA]
    by_cases ht : t = a
    · subst ht
      rw [if_pos rfl, List.count_cons_self]
      simp [List.replicate_succ, List.append_assoc]
    · rw [if_neg ht, List.count_cons_of_ne (by simpa [eq_comm] using ht)]

theorem removeTagRefs_getL (tp : List (String × List String)) (pid : String)
    (tags : List String) (t : String) (hnd : ∀ u, (getL tp u).Nodup) :
    getL (removeTagRefs tp pid tags) t =
      if t ∈ tags then (getL tp t).erase pid else getL tp t := by
  induction tags generalizing tp with
  | nil => simp [removeTagRefs]
  | cons a ts ih =>
    rw [removeTagRefs]
    have hnd' : ∀ u, (getL (setA tp a ((getL tp a).erase pid)) u).Nodup := by
      intro u
      rw [getL_setA]
      split
      · exact (hnd a).erase pid
      · exact hnd u
    rw [ih _ hnd']
    by_cases hts : t ∈ ts
    · rw [if_pos hts, if_pos (List.mem_cons_of_mem a hts), getL_setA]
      by_cases ht : t = a
      · rw [if_pos ht]
        subst ht
        rw [List.erase_of_not_mem (fun hm => (((hnd t).mem_erase_iff).mp hm).1 rfl)]
      · rw [if_neg ht]
    · rw [if_neg hts]
      by_cases ht : t = a
      · subst ht
        rw [getL_setA, if_pos rfl, if_pos (List.mem_cons_self t ts)]
      · rw [getL_setA, if_neg ht, if_neg (by simp [ht, hts])]

theorem addTagRefsIfAbsent_getL (tp : List (String × List String)) (pid : String)
    (tags : List String) (t : String) :
    getL (addTagRefsIfAbsent tp pid tags) t =
      if t ∈ tags ∧ pid ∉ getL tp t then getL tp t ++ [pid] else getL tp t := by
  induction tags generalizing tp with
  | nil => simp [addTagRefsIfAbsent]
  | cons a ts ih =>
    rw [addTagRefsIfAbsent]
    by_cases hmem : pid ∈ getL tp a
    · rw [if_pos (List.elem_iff.mpr hmem), ih]
      by_cases ht : t = a
      · subst ht
        simp [hmem]
      · simp [List.mem_cons, ht, false_or]
    · rw [if_neg (fun hc => hmem (List.elem_iff.mp hc)), ih]
      by_cases ht : t = a
      · subst ht
        rw [getL_setA, if_pos rfl]
        have hself : pid ∈ getL tp t ++ [pid] := List.mem_append_right _ (List.mem_cons_self pid [])
        rw [if_neg (fun hc => hc.2 hself), if_pos ⟨List.mem_cons_self t ts, hmem⟩]
      · rw [getL_setA, if_neg ht]
        by_cases hts : t ∈ ts ∧ pid ∉ getL tp t
        · rw [if_pos hts, if_pos ⟨List.mem_cons_of_mem a hts.1, hts.2⟩]
        · rw [if_neg hts, if_neg (by
            rintro ⟨hc1, hc2⟩
            rcases List.mem_cons.mp hc1 with rfl | hc1
            · exact ht rfl
            · exact hts ⟨hc1, hc2⟩)]

/-! ### Combined lookup lemmas -/

theorem lookup_setA {κ α : Type} [DecidableEq κ] [BEq κ] [LawfulBEq κ]
    (m : List (κ × α)) (k : κ) (v : α) (q : κ) :
    (setA m k v).lookup q = if q = k then some v else m.lookup q := by
  by_cases h : q = k
  · rw [if_pos h, h, lookup_setA_self]
  · rw [if_neg h, lookup_setA_ne m v h]

theorem lookup_append_single {κ α : Type} [DecidableEq κ] [BEq κ] [LawfulBEq κ]
    (m : List (κ × α)) (k : κ) (v : α) (q : κ) (hk : m.lookup k = none) :
    (m ++ [(k, v)]).lookup q = if q = k then some v else m.lookup q := by
  by_cases h : q = k
  · subst h
    rw [if_pos rfl, lookup_append_of_none hk]
    simp [List.lookup_cons]
  · rw [if_neg h]
    cases hq : m.lookup q with
    | none =>
      rw [lookup_append_of_none hq]
      simp [List.lookup_cons, beq_eq_false_iff_ne.mpr h]
    | some w => rw [lookup_append_of_some hq]

theorem lookup_filter_ne {κ α : Type} [DecidableEq κ] [BEq κ] [LawfulBEq κ]
    (m : List (κ × α)) (k q : κ) :
    (m.filter (fun e => e.1 ≠ k)).lookup q = if q = k then none else m.lookup q := by
  induction m with
  | nil => simp [List.lookup_nil]
  | cons e es ih =>
    obtain ⟨a, b⟩ := e
    by_cases ha : a = k
    · subst ha
      rw [List.filter_cons_of_neg (by simp)]
      rw [ih]
      by_cases h : q = a
      · rw [if_pos h, if_pos h]
      · rw [if_neg h, if_neg h, List.lookup_cons]
        simp [beq_eq_false_iff_ne.mpr h]
    · rw [List.filter_cons_of_pos (by simp [ha])]
      by_cases h : q = a
      · subst h
        rw [if_neg ha, List.lookup_cons, List.lookup_cons]
        simp
      · rw [List.lookup_cons]
        simp only [beq_eq_false_iff_ne.mpr h]
        rw [ih, List.lookup_cons]
        simp [beq_eq_false_iff_ne.mpr h]

/-! ### Outer-key preservation for the tag-index folds -/

theorem keysNodup_addTagRefs (tp : List (String × List String)) (pid : String)
    (tags : List String) (h : (tp.map Prod.fst).Nodup) :
    ((addTagRefs tp pid tags).map Prod.fst).Nodup := by
  induction tags generalizing tp with
  | nil => exact h
  | cons a ts ih => exact ih _ (keysNodup_setA a _ h)

theorem keysNodup_removeTagRefs (tp : List (String × List String)) (pid : String)
    (tags : List String) (h : (tp.map Prod.fst).Nodup) :
    ((removeTagRefs tp pid tags).map Prod.fst).Nodup := by
  induction tags generalizing tp with
  | nil => exact h
  | cons a ts ih => exact ih _ (keysNodup_setA a _ h)

theorem keysNodup_addTagRefsIfAbsent (tp : List (String × List String)) (pid : String)
    (tags : List String) (h : (tp.map Prod.fst).Nodup) :
    ((addTagRefsIfAbsent tp pid tags).map Prod.fst).Nodup := by
  induction tags generalizing tp with
  | nil => exact h
  | cons a ts ih =>
    rw [addTagRefsIfAbsent]
    split
    · exact ih _ h
    · exact ih _ (keysNodup_setA a _ h)

/-! ### Index invariant (claim C2's property) -/

theorem idxInv_empty : IdxInv emptyStore := by
  refine ⟨List.nodup_nil, List.nodup_nil, List.nodup_nil, ?_, ?_, ?_, ?_⟩ <;>
    simp [emptyStore, getL, List.lookup_nil]

theorem idxInv_savePost_new {s : Store} {post : Post}
    (hinv : IdxInv s) (hnew : s.posts.lookup post.id = none)
    (htags : post.tags.Nodup) : IdxInv (savePost s post) := by
  obtain ⟨hpk, huk, htk, hui, hti, hun, htn⟩ := hinv
  have hidnotin : post.id ∉ s.posts.map Prod.fst := lookup_eq_none_iff_keys.mp hnew
  have hlookup : ∀ q, (s.posts ++ [(post.id, post)]).lookup q
      = if q = post.id then some post else s.posts.lookup q :=
    fun q => lookup_append_single _ _ _ q hnew
  have hnotinUser : ∀ u, post.id ∉ getL s.userPosts u := by
    intro u hmem
    rcases (hui u post.id).mp hmem with ⟨p, hp, _⟩
    rw [hnew] at hp
    exact Option.noConfusion hp
  have hnotinTag : ∀ t, post.id ∉ getL s.tagPosts t := by
    intro t hmem
    rcases (hti t post.id).mp hmem with ⟨p, hp, _⟩
    rw [hnew] at hp
    exact Option.noConfusion hp
  unfold savePost
  rw [hnew]
  refine ⟨?_, ?_, ?_, ?_, ?_, ?_, ?_⟩
  · dsimp only
    rw [List.map_append, List.nodup_append]
    refine ⟨hpk, by simp, ?_⟩
    intro x hx hx'
    simp only [List.map_cons, List.map_nil, List.mem_singleton] at hx'
    subst hx'
    exact hidnotin hx
  · exact keysNodup_setA _ _ huk
  · exact keysNodup_addTagRefs _ _ _ htk
  · intro u pid
    dsimp only
    rw [getL_setA, hlookup pid]
    by_cases hpid : pid = post.id
    · subst hpid
      rw [if_pos rfl]
      by_cases hu : u = post.userID
      · subst hu
        rw [if_pos rfl]
        simp [List.mem_append]
      · rw [if_neg hu]
        constructor
        · intro hmem
          exact absurd hmem (hnotinUser u)
        · rintro ⟨p, hp, hpu⟩
          cases hp
          exact absurd hpu.symm hu
    · rw [if_neg hpid]
      by_cases hu : u = post.userID
      · subst hu
        rw [if_pos rfl, List.mem_append]
        rw [show (pid ∈ [post.id]) = (pid = post.id) by simp]
        simp only [hpid, or_false]
        exact hui _ pid
      · rw [if_neg hu]
        exact hui u pid
  · intro t pid
    dsimp only
    rw [addTagRefs_getL, hlookup pid, List.mem_append, List.mem_replicate]
    have hcnt : post.tags.count t ≠ 0 ↔ t ∈ post.tags := by
      rw [Nat.ne_zero_iff_zero_lt]
      exact List.count_pos_iff
    by_cases hpid : pid = post.id
    · subst hpid
      rw [if_pos rfl]
      constructor
      · rintro (hmem | ⟨hc, _⟩)
        · exact absurd hmem (hnotinTag t)
        · exact ⟨post, rfl, hcnt.mp hc⟩
      · rintro ⟨p, hp, hpt⟩
        cases hp
        exact Or.inr ⟨hcnt.mpr hpt, rfl⟩
    · rw [if_neg hpid]
      simp only [hpid, and_false, or_false]
      exact hti t pid
  · intro u
    dsimp only
    rw [getL_setA]
    by_cases hu : u = post.userID
    · rw [if_pos hu]
      rw [List.nodup_append]
      exact ⟨hun _, List.nodup_singleton _, by
        intro x hx hx'
        rw [List.mem_singleton] at hx'
        subst hx'
        exact hnotinUser _ hx⟩
    · rw [if_neg hu]
      exact hun u
  · intro t
    dsimp only
    rw [addTagRefs_getL, List.nodup_append]
    refine ⟨htn t, ?_, ?_⟩
    · rw [List.nodup_replicate]
      exact List.nodup_iff_count_le_one.mp htags t
    · intro x hx hx'
      rw [List.mem_replicate] at hx'
      rw [hx'.2] at hx
      exact hnotinTag t hx

theorem idxInv_savePost_update {s : Store} {post old : Post}
    (hinv : IdxInv s) (hold : s.posts.lookup post.id = some old)
    (huser : old.userID = post.userID) : IdxInv (savePost s post) := by
  obtain ⟨hpk, huk, htk, hui, hti, hun, htn⟩ := hinv
  unfold savePost
  rw [hold]
  have hlookup : ∀ q, (setA s.posts post.id post).lookup q
      = if q = post.id then some post else s.posts.lookup q :=
    fun q => lookup_setA _ _ _ q
  have hrem : ∀ t, getL (removeTagRefs s.tagPosts post.id old.tags) t
      = if t ∈ old.tags then (getL s.tagPosts t).erase post.id else getL s.tagPosts t :=
    fun t => removeTagRefs_getL _ _ _ t htn
  have hremnd : ∀ t, (getL (removeTagRefs s.tagPosts post.id old.tags) t).Nodup := by
    intro t
    rw [hrem]
    split
    · exact (htn t).erase _
    · exact htn t
  have hidrem : ∀ t, post.id ∉ getL (removeTagRefs s.tagPosts post.id old.tags) t := by
    intro t
    rw [hrem]
    split
    · exact fun hm => (((htn t).mem_erase_iff).mp hm).1 rfl
    · next hnotmem =>
      intro hm
      rcases (hti t post.id).mp hm with ⟨p, hp, hptag⟩
      rw [hold] at hp
      cases hp
      exact hnotmem hptag
  have hqrem : ∀ t q, q ≠ post.id →
      (q ∈ getL (removeTagRefs s.tagPosts post.id old.tags) t ↔ q ∈ getL s.tagPosts t) := by
    intro t q hq
    rw [hrem]
    split
    · exact List.mem_erase_of_ne hq
    · exact Iff.rfl
  have hfin : ∀ t, getL (addTagRefsIfAbsent (removeTagRefs s.tagPosts post.id old.tags)
        post.id post.tags) t
      = if t ∈ post.tags
        then getL (removeTagRefs s.tagPosts post.id old.tags) t ++ [post.id]
        else getL (removeTagRefs s.tagPosts post.id old.tags) t := by
    intro t
    rw [addTagRefsIfAbsent_getL]
    by_cases ht : t ∈ post.tags
    · rw [if_pos ⟨ht, hidrem t⟩, if_pos ht]
    · rw [if_neg (fun hc => ht hc.1), if_neg ht]
  refine ⟨?_, ?_, ?_, ?_, ?_, ?_, ?_⟩
  · exact keysNodup_setA _ _ hpk
  · exact huk
  · exact keysNodup_addTagRefsIfAbsent _ _ _ (keysNodup_removeTagRefs _ _ _ htk)
  · intro u q
    dsimp only
    rw [hlookup q]
    by_cases hq : q = post.id
    · subst hq
      rw [if_pos rfl]
      constructor
      · intro hmem
        rcases (hui u post.id).mp hmem with ⟨p, hp, hpu⟩
        rw [hold] at hp
        cases hp
        exact ⟨post, rfl, by rw [← huser, hpu]⟩
      · rintro ⟨p, hp, hpu⟩
        cases hp
        exact (hui u post.id).mpr ⟨old, hold, by rw [huser, hpu]⟩
    · rw [if_neg hq]
      exact hui u q
  · intro t q
    dsimp only
    rw [hfin t, hlookup q]
    by_cases hq : q = post.id
    · subst hq
      rw [if_pos rfl]
      by_cases ht : t ∈ post.tags
      · rw [if_pos ht]
        constructor
        · intro _
          exact ⟨post, rfl, ht⟩
        · intro _
          exact List.mem_append_right _ (List.mem_cons_self _ _)
      · rw [if_neg ht]
        constructor
        · intro hmem
          exact absurd hmem (hidrem t)
        · rintro ⟨p, hp, hpt⟩
          cases hp
          exact absurd hpt ht
    · have hmq : ∀ l : List String, q ∈ l ++ [post.id] ↔ q ∈ l := by
        intro l
        rw [List.mem_append, List.mem_singleton]
        simp [hq]
      rw [if_neg hq]
      by_cases ht : t ∈ post.tags
      · rw [if_pos ht, hmq, hqrem t q hq]
        exact hti t q
      · rw [if_neg ht, hqrem t q hq]
        exact hti t q
  · exact hun
  · intro t
    dsimp only
    rw [hfin t]
    split
    · rw [List.nodup_append]
      refine ⟨hremnd t, List.nodup_singleton _, ?_⟩
      intro x hx hx'
      rw [List.mem_singleton] at hx'
      subst hx'
      exact hidrem t hx
    · exact hremnd t

theorem idxInv_deletePost (s : Store) (pid uid : String)
    (hinv : IdxInv s) : IdxInv (deletePost s pid uid).2 := by
  obtain ⟨hpk, huk, htk, hui, hti, hun, htn⟩ := hinv
  unfold deletePost
  cases hl : s.posts.lookup pid with
  | none => exact ⟨hpk, huk, htk, hui, hti, hun, htn⟩
  | some post =>
    dsimp only
    by_cases hu : post.userID ≠ uid
    · rw [if_pos hu]
      exact ⟨hpk, huk, htk, hui, hti, hun, htn⟩
    · rw [if_neg hu]
      push_neg at hu
      dsimp only
      have hlookup : ∀ q, (s.posts.filter (fun e => e.1 ≠ pid)).lookup q
          = if q = pid then none else s.posts.lookup q :=
        fun q => lookup_filter_ne _ _ q
      have hrem : ∀ t, getL (removeTagRefs s.tagPosts pid post.tags) t
          = if t ∈ post.tags then (getL s.tagPosts t).erase pid else getL s.tagPosts t :=
        fun t => removeTagRefs_getL _ _ _ t htn
      refine ⟨?_, ?_, ?_, ?_, ?_, ?_, ?_⟩
      · exact hpk.sublist ((List.filter_sublist _).map Prod.fst)
      · exact keysNodup_setA _ _ huk
      · exact keysNodup_removeTagRefs _ _ _ htk
      · intro u q
        rw [getL_setA, hlookup q]
        by_cases hq : q = pid
        · subst hq
          rw [if_pos rfl]
          constructor
          · intro hmem
            by_cases huu : u = uid
            · rw [if_pos huu] at hmem
              exact absurd hmem (fun hm => (((hun uid).mem_erase_iff).mp hm).1 rfl)
            · rw [if_neg huu] at hmem
              rcases (hui u q).mp hmem with ⟨p, hp, hpu⟩
              rw [hl] at hp
              cases hp
              exact absurd (hpu ▸ hu) huu
          · rintro ⟨p, hp, _⟩
            exact Option.noConfusion hp
        · rw [if_neg hq]
          by_cases huu : u = uid
          · subst huu
            rw [if_pos rfl, List.mem_erase_of_ne hq]
            exact hui _ q
          · rw [if_neg huu]
            exact hui u q
      · intro t q
        rw [hrem t, hlookup q]
        by_cases hq : q = pid
        · subst hq
          rw [if_pos rfl]
          constructor
          · intro hmem
            by_cases ht : t ∈ post.tags
            · rw [if_pos ht] at hmem
              exact absurd hmem (fun hm => (((htn t).mem_erase_iff).mp hm).1 rfl)
            · rw [if_neg ht] at hmem
              rcases (hti t q).mp hmem with ⟨p, hp, hpt⟩
              rw [hl] at hp
              cases hp
              exact absurd hpt ht
          · rintro ⟨p, hp, _⟩
            exact Option.noConfusion hp
        · rw [if_neg hq]
          by_cases ht : t ∈ post.tags
          · rw [if_pos ht, List.mem_erase_of_ne hq]
            exact hti t q
          · rw [if_neg ht]
            exact hti t q
      · intro u
        rw [getL_setA]
        split
        · exact (hun uid).erase _
        · exact hun u
      · intro t
        rw [hrem t]
        split
        · exact (htn t).erase _
        · exact htn t

theorem idxInv_of_reach {s : Store} (h : ReachIdx s) : IdxInv s := by
  induction h with
  | empty => exact idxInv_empty
  | save post _ hnodup huser ih =>
    cases hl : List.lookup post.id _ with
    | none => exact idxInv_savePost_new ih hl (hnodup hl)
    | some old => exact idxInv_savePost_update ih hl (huser old hl)
  | delete pid uid _ ih => exact idxInv_deletePost _ pid uid ih

/-- C2 (amended): in every store state reachable from the empty store by
SavePost and DeletePost operations — where a SavePost creating a new post
carries a duplicate-free tag list and a SavePost updating an existing
post does not change its UserID — a postID appears in the user index
under user `u` iff a post with that ID exists with `UserID = u`, appears
in the tag index under tag `t` iff a post with that ID exists carrying
`t`, and no index list contains a duplicate entry. -/
theorem c2_index_invariant {s : Store} (hreach : ReachIdx s) :
    (∀ u pid, pid ∈ getL s.userPosts u ↔ ∃ p, s.posts.lookup pid = some p ∧ p.userID = u) ∧
    (∀ t pid, pid ∈ getL s.tagPosts t ↔ ∃ p, s.posts.lookup pid = some p ∧ t ∈ p.tags) ∧
    (∀ u, (getL s.userPosts u).Nodup) ∧
    (∀ t, (getL s.tagPosts t).Nodup) := by
  obtain ⟨_, _, _, hui, hti, hun, htn⟩ := idxInv_of_reach hreach
  exact ⟨hui, hti, hun, htn⟩

/-- C2 witness: the invariant holds in the concrete reachable store with
the single post `postPlain`, instantiated at its ID, owner and tag. -/
theorem c2_index_invariant_witness :
    (("p1" ∈ getL (savePost emptyStore postPlain).userPosts "u1") ↔
      ∃ p, (savePost emptyStore postPlain).posts.lookup "p1" = some p ∧ p.userID = "u1") ∧
    (getL (savePost emptyStore postPlain).tagPosts "a").Nodup := by
  have h := c2_index_invariant
    (ReachIdx.save postPlain ReachIdx.empty (fun _ => by decide)
      (fun old hold => Option.noConfusion hold))
  exact ⟨h.1 "u1" "p1", h.2.2.2 "a"⟩

/-- C2 counterexample: saving a single new post whose tag list repeats
the tag `"a"` is a plain SavePost from the empty store, yet it leaves
two entries for `"p1"` in the tag index under `"a"`, so the invariant of
the claim fails in a state reachable by unrestricted SavePost and
DeletePost operations. -/
theorem c2_counterexample :
    ReachSD (savePost emptyStore postDupTags) ∧
    ¬ (getL (savePost emptyStore postDupTags).tagPosts "a").Nodup := by
  constructor
  · exact ReachSD.save postDupTags ReachSD.empty
  · decide

/-! ### `setA` membership and counting lemmas -/

theorem any_eq_true_of_lookup_eq_some {κ α : Type} [BEq κ] [LawfulBEq κ]
    {m : List (κ × α)} {k : κ} {v : α}
    (h : m.lookup k = some v) : m.any (fun e => e.1 == k) = true := by
  by_contra hc
  rw [lookup_eq_none_iff_any.mpr (Bool.eq_false_iff.mpr hc)] at h
  exact Option.noConfusion h

theorem map_subst_eq_self {κ α : Type} [BEq κ] [LawfulBEq κ]
    {es : List (κ × α)} {k : κ} (v : α) (h : k ∉ es.map Prod.fst) :
    es.map (fun e => if e.1 == k then (k, v) else e) = es := by
  have h2 : es.map (fun e => if e.1 == k then (k, v) else e) = es.map id := by
    apply List.map_congr_left
    intro e he
    have hek : (e.1 == k) = false :=
      beq_eq_false_iff_ne.mpr (fun hq => h (List.mem_map.mpr ⟨e, he, hq⟩))
    simp [hek]
  simpa using h2

theorem mem_setA_elim {κ α : Type} [BEq κ] [LawfulBEq κ]
    {m : List (κ × α)} {k : κ} {v : α} {kv : κ × α} (h : kv ∈ setA m k v) :
    kv = (k, v) ∨ (kv ∈ m ∧ kv.1 ≠ k) := by
  unfold setA at h
  split at h
  · rcases List.mem_map.mp h with ⟨e, he, hkv⟩
    by_cases hek : e.1 = k
    · left
      rw [← hkv]
      simp [hek]
    · right
      rw [← hkv]
      simp only [beq_eq_false_iff_ne.mpr hek, Bool.false_eq_true, if_false]
      exact ⟨he, hek⟩
  · next hany =>
    rcases List.mem_append.mp h with hm | hm
    · right
      refine ⟨hm, ?_⟩
      intro hk
      have := not_mem_keys_iff_any.mpr (Bool.eq_false_iff.mpr hany)
      exact this (List.mem_map.mpr ⟨kv, hm, hk⟩)
    · left
      simpa using hm

theorem setA_self {κ α : Type} [BEq κ] [LawfulBEq κ]
    {m : List (κ × α)} (hnd : (m.map Prod.fst).Nodup) {k : κ} {v : α}
    (h : m.lookup k = some v) : setA m k v = m := by
  unfold setA
  rw [if_pos (any_eq_true_of_lookup_eq_some h)]
  induction m with
  | nil => rfl
  | cons e es ih =>
    obtain ⟨a, b⟩ := e
    simp only [List.map_cons, List.nodup_cons] at hnd
    by_cases hk : k = a
    · subst hk
      simp only [List.lookup_cons, beq_self_eq_true] at h
      cases h
      simp only [List.map_cons, beq_self_eq_true, if_true]
      congr 1
      exact map_subst_eq_self v hnd.1
    · have hbk : (k == a) = false := beq_eq_false_iff_ne.mpr hk
      have hab : (a == k) = false := beq_eq_false_iff_ne.mpr (Ne.symm hk)
      simp only [List.lookup_cons, hbk] at h
      simp only [List.map_cons, hab, Bool.false_eq_true, if_false]
      rw [ih hnd.2 h]

theorem countP_setA_of_lookup_none {κ α : Type} [BEq κ] [LawfulBEq κ]
    {m : List (κ × α)} {k : κ} (h : m.lookup k = none) (v : α) (p : κ × α → Bool) :
    (setA m k v).countP p = m.countP p + (if p (k, v) then 1 else 0) := by
  rw [setA_of_lookup_eq_none h v, List.countP_append]
  simp [List.countP_cons]

theorem countP_setA_of_lookup_some {κ α : Type} [BEq κ] [LawfulBEq κ]
    {m : List (κ × α)} (hnd : (m.map Prod.fst).Nodup) {k : κ} {v0 : α}
    (h : m.lookup k = some v0) (v : α) (p : κ × α → Bool) :
    (setA m k v).countP p + (if p (k, v0) then 1 else 0)
      = m.countP p + (if p (k, v) then 1 else 0) := by
  unfold setA
  rw [if_pos (any_eq_true_of_lookup_eq_some h)]
  induction m with
  | nil => exact Option.noConfusion h
  | cons e es ih =>
    obtain ⟨a, b⟩ := e
    simp only [List.map_cons, List.nodup_cons] at hnd
    by_cases hk : k = a
    · subst hk
      simp only [List.lookup_cons, beq_self_eq_true] at h
      cases h
      simp only [List.map_cons, beq_self_eq_true, if_true, List.countP_cons]
      rw [map_subst_eq_self v hnd.1]
      omega
    · have hbk : (k == a) = false := beq_eq_false_iff_ne.mpr hk
      have hab : (a == k) = false := beq_eq_false_iff_ne.mpr (Ne.symm hk)
      simp only [List.lookup_cons, hbk] at h
      simp only [List.map_cons, hab, Bool.false_eq_true, if_false, List.countP_cons]
      have := ih hnd.2 h
      omega

theorem countP_filter_key {κ α : Type} [DecidableEq κ] [BEq κ] [LawfulBEq κ]
    {m : List (κ × α)} (hnd : (m.map Prod.fst).Nodup) {k : κ} {v0 : α}
    (h : m.lookup k = some v0) (p : κ × α → Bool) :
    (m.filter (fun e => e.1 ≠ k)).countP p + (if p (k, v0) then 1 else 0) = m.countP p := by
  induction m with
  | nil => exact Option.noConfusion h
  | cons e es ih =>
    obtain ⟨a, b⟩ := e
    simp only [List.map_cons, List.nodup_cons] at hnd
    by_cases hk : k = a
    · subst hk
      simp only [List.lookup_cons, beq_self_eq_true] at h
      cases h
      rw [List.filter_cons_of_neg (by simp)]
      have hrest : es.filter (fun e => e.1 ≠ k) = es := by
        apply List.filter_eq_self.mpr
        intro e he
        simp only [ne_eq, decide_eq_true_eq]
        intro hek
        exact hnd.1 (List.mem_map.mpr ⟨e, he, hek⟩)
      rw [hrest, List.countP_cons]
    · have hbk : (k == a) = false := beq_eq_false_iff_ne.mpr hk
      simp only [List.lookup_cons, hbk] at h
      rw [List.filter_cons_of_pos (by simp [Ne.symm hk]), List.countP_cons, List.countP_cons]
      have := ih hnd.2 h
      omega

/-! ### Reaction-coherence lemmas -/

theorem rinv_rows_nodup {s : Store} (hinv : RInv s) (pid : String) :
    ((rowsFor s pid).map Prod.fst).Nodup := by
  obtain ⟨_, _, hin, _, _⟩ := hinv
  unfold rowsFor
  cases hl : s.reactions.lookup pid with
  | none => exact List.nodup_nil
  | some l => exact hin (pid, l) (mem_of_lookup_eq_some hl)

theorem rinv_rows_post {s : Store} (hinv : RInv s) {pid : String}
    (h : rowsFor s pid ≠ []) : pid ∈ s.posts.map Prod.fst := by
  obtain ⟨_, _, _, horph, _⟩ := hinv
  unfold rowsFor at h
  cases hl : s.reactions.lookup pid with
  | none => rw [hl] at h; exact absurd rfl h
  | some l =>
    rw [hl] at h
    exact horph (pid, l) (mem_of_lookup_eq_some hl) h

theorem rinv_coh {s : Store} (hinv : RInv s) {pid : String} {post : Post}
    (h : s.posts.lookup pid = some post) : RCoh (rowsFor s pid) post.reactions :=
  hinv.2.2.2.2 (pid, post) (mem_of_lookup_eq_some h)

theorem rcoh_getRx {rows : List (String × UserReaction)} {r : Option (List (Nat × Int))}
    (h : RCoh rows r) (k : Nat) : getRx r k = (rowCount rows k : Int) := by
  obtain ⟨hnd, hval, hmem⟩ := h
  unfold getRx getR
  cases hl : (r.getD []).lookup k with
  | none =>
    have hk : k ∉ (r.getD []).map Prod.fst := lookup_eq_none_iff_keys.mp hl
    have hz : rowCount rows k = 0 := by
      rw [rowCount, List.countP_eq_zero]
      intro row hrow hp
      exact hk (beq_iff_eq.mp hp ▸ hmem row hrow)
    simp [hz]
  | some v =>
    have := hval (k, v) (mem_of_lookup_eq_some hl)
    simpa using this

theorem rcoh_getRx_nonneg {rows : List (String × UserReaction)}
    {r : Option (List (Nat × Int))} (h : RCoh rows r) (k : Nat) : 0 ≤ getRx r k := by
  rw [rcoh_getRx h k]
  exact Int.ofNat_nonneg _

theorem indicator_sum_eq_one {keys : List Nat} (hnd : keys.Nodup) {x : Nat} (hx : x ∈ keys) :
    (keys.map (fun k => if x == k then (1 : Nat) else 0)).sum = 1 := by
  induction keys with
  | nil => cases hx
  | cons a ks ih =>
    simp only [List.map_cons, List.sum_cons]
    rw [List.nodup_cons] at hnd
    rcases List.mem_cons.mp hx with rfl | hx'
    · rw [if_pos (beq_self_eq_true x)]
      have hz : (ks.map (fun k => if x == k then (1 : Nat) else 0)).sum = 0 := by
        apply List.sum_eq_zero
        intro n hn
        rcases List.mem_map.mp hn with ⟨k, hk, rfl⟩
        rw [if_neg]
        intro hc
        exact hnd.1 (beq_iff_eq.mp hc ▸ hk)
      rw [hz]
    · have hxa : (x == a) = false :=
        beq_eq_false_iff_ne.mpr (fun hq => hnd.1 (hq ▸ hx'))
      rw [if_neg (by simp [hxa]), ih hnd.2 hx']

theorem length_eq_sum_rowCount {rows : List (String × UserReaction)} {keys : List Nat}
    (hnd : keys.Nodup) (hmem : ∀ row ∈ rows, row.2.reactionType ∈ keys) :
    (keys.map (fun k => rowCount rows k)).sum = rows.length := by
  induction rows with
  | nil => simp [rowCount]
  | cons r rs ih =>
    have hm : ∀ row ∈ rs, row.2.reactionType ∈ keys :=
      fun row h => hmem row (List.mem_cons_of_mem _ h)
    have hr : r.2.reactionType ∈ keys := hmem r (List.mem_cons_self _ _)
    have hsplit : (keys.map fun k => rowCount (r :: rs) k)
        = keys.map fun k => rowCount rs k + if (r.2.reactionType == k) = true then 1 else 0 := by
      apply List.map_congr_left
      intro k _
      rw [rowCount, rowCount, List.countP_cons]
    rw [hsplit, List.sum_map_add, ih hm, indicator_sum_eq_one hnd hr]
    simp [List.length_cons]

theorem sumReactions_eq_length {rows : List (String × UserReaction)}
    {r : Option (List (Nat × Int))} (h : RCoh rows r) :
    sumReactions r = (rows.length : Int) := by
  obtain ⟨hnd, hval, hmem⟩ := h
  unfold sumReactions
  have h1 : (r.getD []).map (fun e => e.2)
      = ((r.getD []).map Prod.fst).map (fun k => ((rowCount rows k : Nat) : Int)) := by
    rw [List.map_map]
    exact List.map_congr_left (fun e he => hval e he)
  rw [h1, ← length_eq_sum_rowCount hnd hmem, Nat.cast_list_sum, List.map_map, List.map_map,
    List.map_map]
  rfl

/-! ### Reaction-invariant preservation -/

theorem rinv_empty : RInv emptyStore := by
  refine ⟨List.nodup_nil, List.nodup_nil, ?_, ?_, ?_⟩ <;> simp [emptyStore]

theorem rinv_savePost {s : Store} {post : Post} (hinv : RInv s)
    (hcoh : RCoh (rowsFor s post.id) post.reactions) : RInv (savePost s post) := by
  obtain ⟨hpk, hrk, hin, horph, hcohs⟩ := hinv
  unfold savePost
  cases hl : s.posts.lookup post.id with
  | none =>
    refine ⟨?_, hrk, hin, ?_, ?_⟩
    · dsimp only
      rw [List.map_append, List.nodup_append]
      refine ⟨hpk, by simp, ?_⟩
      intro x hx hx'
      simp only [List.map_cons, List.map_nil, List.mem_singleton] at hx'
      subst hx'
      exact (lookup_eq_none_iff_keys.mp hl) hx
    · intro e he hne
      dsimp only at he ⊢
      rw [List.map_append]
      exact List.mem_append_left _ (horph e he hne)
    · intro kv hkv
      dsimp only at hkv ⊢
      rcases List.mem_append.mp hkv with hm | hm
      · exact hcohs kv hm
      · rw [List.mem_singleton] at hm
        subst hm
        exact hcoh
  | some old =>
    refine ⟨keysNodup_setA _ _ hpk, hrk, hin, ?_, ?_⟩
    · intro e he hne
      dsimp only at he ⊢
      rw [keys_setA, if_pos (any_eq_true_of_lookup_eq_some hl)]
      exact horph e he hne
    · intro kv hkv
      dsimp only at hkv ⊢
      rcases mem_setA_elim hkv with rfl | ⟨hm, _⟩
      · exact hcoh
      · exact hcohs kv hm

theorem rinv_deletePost (s : Store) (pid uid : String) (hinv : RInv s) :
    RInv (deletePost s pid uid).2 := by
  obtain ⟨hpk, hrk, hin, horph, hcohs⟩ := hinv
  unfold deletePost
  cases hl : s.posts.lookup pid with
  | none => exact ⟨hpk, hrk, hin, horph, hcohs⟩
  | some post =>
    dsimp only
    by_cases hu : post.userID ≠ uid
    · rw [if_pos hu]
      exact ⟨hpk, hrk, hin, horph, hcohs⟩
    · rw [if_neg hu]
      dsimp only
      refine ⟨hpk.sublist ((List.filter_sublist _).map Prod.fst),
        hrk.sublist ((List.filter_sublist _).map Prod.fst), ?_, ?_, ?_⟩
      · intro e he
        exact hin e (List.mem_of_mem_filter he)
      · intro e he hne
        have hmem := List.mem_of_mem_filter he
        have hekey : e.1 ≠ pid := by
          have := List.of_mem_filter he
          simpa using this
        rcases List.mem_map.mp (horph e hmem hne) with ⟨kv, hkv, hkey⟩
        refine List.mem_map.mpr ⟨kv, ?_, hkey⟩
        apply List.mem_filter.mpr
        refine ⟨hkv, ?_⟩
        simp only [ne_eq, decide_eq_true_eq]
        rw [hkey]
        exact hekey
      · intro kv hkv
        have hmem := List.mem_of_mem_filter hkv
        have hekey : kv.1 ≠ pid := by
          have := List.of_mem_filter hkv
          simpa using this
        have hcoh := hcohs kv hmem
        unfold rowsFor
        dsimp only
        rw [lookup_filter_ne, if_neg hekey]
        exact hcoh

theorem rowCount_setA_update {pr : List (String × UserReaction)}
    (hnd : (pr.map Prod.fst).Nodup) {uid : String} {ur : UserReaction}
    (h : pr.lookup uid = some ur) (x : UserReaction) (j : Nat) :
    rowCount (setA pr uid x) j + (if ur.reactionType == j then 1 else 0)
      = rowCount pr j + (if x.reactionType == j then 1 else 0) := by
  have := countP_setA_of_lookup_some hnd h x (fun row => row.2.reactionType == j)
  simpa [rowCount] using this

theorem rowCount_setA_new {pr : List (String × UserReaction)} {uid : String}
    (h : pr.lookup uid = none) (x : UserReaction) (j : Nat) :
    rowCount (setA pr uid x) j = rowCount pr j + (if x.reactionType == j then 1 else 0) := by
  have := countP_setA_of_lookup_none h x (fun row => row.2.reactionType == j)
  simpa [rowCount] using this

theorem rowCount_filter {pr : List (String × UserReaction)}
    (hnd : (pr.map Prod.fst).Nodup) {uid : String} {ur : UserReaction}
    (h : pr.lookup uid = some ur) (j : Nat) :
    rowCount (pr.filter (fun e => e.1 ≠ uid)) j + (if ur.reactionType == j then 1 else 0)
      = rowCount pr j := by
  have := countP_filter_key hnd h (fun row => row.2.reactionType == j)
  simpa [rowCount] using this

theorem rowCount_pos_of_mem {pr : List (String × UserReaction)}
    {row : String × UserReaction} (h : row ∈ pr) :
    1 ≤ rowCount pr row.2.reactionType := by
  rw [rowCount]
  exact List.countP_pos_iff.mpr ⟨row, h, beq_self_eq_true _⟩

theorem rinv_reaction_update {s : Store} {pid : String} {post : Post}
    (newR : Option (List (Nat × Int))) (pr2 : List (String × UserReaction))
    (hinv : RInv s) (hl : s.posts.lookup pid = some post)
    (hnd2 : (pr2.map Prod.fst).Nodup) (hcoh2 : RCoh pr2 newR) :
    RInv { s with
      posts := setA s.posts pid { post with reactions := newR }
      reactions := setA s.reactions pid pr2 } := by
  have hpk := hinv.1
  have hrk := hinv.2.1
  have hin := hinv.2.2.1
  have horph := hinv.2.2.2.1
  have hcohs := hinv.2.2.2.2
  have hpostmem : pid ∈ s.posts.map Prod.fst :=
    List.mem_map.mpr ⟨(pid, post), mem_of_lookup_eq_some hl, rfl⟩
  have hkeys : (setA s.posts pid { post with reactions := newR }).map Prod.fst
      = s.posts.map Prod.fst := by
    rw [keys_setA, if_pos (any_eq_true_of_lookup_eq_some hl)]
  refine ⟨?_, keysNodup_setA _ _ hrk, ?_, ?_, ?_⟩
  · exact keysNodup_setA _ _ hpk
  · intro e he
    dsimp only at he
    rcases mem_setA_elim he with rfl | ⟨hm, _⟩
    · exact hnd2
    · exact hin e hm
  · intro e he hne
    dsimp only at he ⊢
    rw [hkeys]
    rcases mem_setA_elim he with rfl | ⟨hm, _⟩
    · exact hpostmem
    · exact horph e hm hne
  · intro kv hkv
    dsimp only at hkv ⊢
    rcases mem_setA_elim hkv with rfl | ⟨hm, hne⟩
    · unfold rowsFor
      dsimp only
      rw [lookup_setA, if_pos rfl]
      exact hcoh2
    · unfold rowsFor
      dsimp only
      rw [lookup_setA, if_neg hne]
      exact hcohs kv hm

theorem rcoh_switch {pr : List (String × UserReaction)} {r0 : List (Nat × Int)}
    (hprnd : (pr.map Prod.fst).Nodup) (hcoh : RCoh pr (some r0))
    {uid : String} {ur : UserReaction} (hur : pr.lookup uid = some ur)
    {k : Nat} (hne : ur.reactionType ≠ k) (now : Int) :
    RCoh (setA pr uid ⟨uid, k, now⟩)
      (some (setA (setA r0 ur.reactionType (getR r0 ur.reactionType - 1)) k
        (getR (setA r0 ur.reactionType (getR r0 ur.reactionType - 1)) k + 1))) := by
  have hr0nd : (r0.map Prod.fst).Nodup := hcoh.1
  have hvals := hcoh.2.1
  have hkinds := hcoh.2.2
  have hcc : ∀ j, rowCount (setA pr uid ⟨uid, k, now⟩) j
      + (if ur.reactionType == j then 1 else 0)
      = rowCount pr j + (if k == j then 1 else 0) :=
    fun j => rowCount_setA_update hprnd hur ⟨uid, k, now⟩ j
  have hgetA : getR r0 ur.reactionType = (rowCount pr ur.reactionType : Int) :=
    rcoh_getRx hcoh ur.reactionType
  have hgetk : getR r0 k = (rowCount pr k : Int) := rcoh_getRx hcoh k
  have hcntA : 1 ≤ rowCount pr ur.reactionType :=
    rowCount_pos_of_mem (mem_of_lookup_eq_some hur)
  have hr1k : getR (setA r0 ur.reactionType (getR r0 ur.reactionType - 1)) k = getR r0 k := by
    rw [getR_setA, if_neg (Ne.symm hne)]
  refine ⟨?_, ?_, ?_⟩
  · exact keysNodup_setA _ _ (keysNodup_setA _ _ hr0nd)
  · intro e he
    rcases mem_setA_elim he with rfl | ⟨he1, hek⟩
    · have h1 := hcc k
      have hAk : (ur.reactionType == k) = false := beq_eq_false_iff_ne.mpr hne
      simp only [hAk, Bool.false_eq_true, if_false, beq_self_eq_true, if_true, add_zero] at h1
      dsimp only
      rw [hr1k, hgetk]
      omega
    · rcases mem_setA_elim he1 with rfl | ⟨he0, heA⟩
      · have h1 := hcc ur.reactionType
        have hkA : (k == ur.reactionType) = false := beq_eq_false_iff_ne.mpr (Ne.symm hne)
        simp only [hkA, Bool.false_eq_true, if_false, beq_self_eq_true, if_true, add_zero] at h1
        dsimp only
        rw [hgetA]
        omega
      · have h1 := hcc e.1
        have hA : (ur.reactionType == e.1) = false :=
          beq_eq_false_iff_ne.mpr (fun hq => heA hq.symm)
        have hK : (k == e.1) = false :=
          beq_eq_false_iff_ne.mpr (fun hq => hek hq.symm)
        simp only [hA, hK, Bool.false_eq_true, if_false, add_zero] at h1
        rw [hvals e he0]
        omega
  · intro row hrow
    rcases mem_setA_elim hrow with rfl | ⟨hr, _⟩
    · exact (mem_keys_setA _ _).mpr (Or.inr rfl)
    · have := hkinds row hr
      exact (mem_keys_setA _ _).mpr
        (Or.inl ((mem_keys_setA _ _).mpr (Or.inl this)))

theorem rcoh_new {pr : List (String × UserReaction)} {r0 : List (Nat × Int)}
    (hcoh : RCoh pr (some r0)) {uid : String}
    (hur : pr.lookup uid = none) (k : Nat) (now : Int) :
    RCoh (setA pr uid ⟨uid, k, now⟩) (some (setA r0 k (getR r0 k + 1))) := by
  have hr0nd : (r0.map Prod.fst).Nodup := hcoh.1
  have hvals := hcoh.2.1
  have hkinds := hcoh.2.2
  have hcc : ∀ j, rowCount (setA pr uid ⟨uid, k, now⟩) j
      = rowCount pr j + (if k == j then 1 else 0) :=
    fun j => rowCount_setA_new hur ⟨uid, k, now⟩ j
  have hgetk : getR r0 k = (rowCount pr k : Int) := rcoh_getRx hcoh k
  refine ⟨keysNodup_setA _ _ hr0nd, ?_, ?_⟩
  · intro e he
    rcases mem_setA_elim he with rfl | ⟨he0, hek⟩
    · have h1 := hcc k
      simp only [beq_self_eq_true, if_true] at h1
      dsimp only
      rw [hgetk]
      omega
    · have h1 := hcc e.1
      have hK : (k == e.1) = false :=
        beq_eq_false_iff_ne.mpr (fun hq => hek hq.symm)
      simp only [hK, Bool.false_eq_true, if_false, add_zero] at h1
      rw [hvals e he0]
      omega
  · intro row hrow
    rcases mem_setA_elim hrow with rfl | ⟨hr, _⟩
    · exact (mem_keys_setA _ _).mpr (Or.inr rfl)
    · exact (mem_keys_setA _ _).mpr (Or.inl (hkinds row hr))

theorem rcoh_delete {pr : List (String × UserReaction)} {r0 : List (Nat × Int)}
    (hprnd : (pr.map Prod.fst).Nodup) (hcoh : RCoh pr (some r0))
    {uid : String} {ur : UserReaction} (hur : pr.lookup uid = some ur) :
    RCoh (pr.filter (fun e => e.1 ≠ uid))
      (some (setA r0 ur.reactionType (getR r0 ur.reactionType - 1))) := by
  have hr0nd : (r0.map Prod.fst).Nodup := hcoh.1
  have hvals := hcoh.2.1
  have hkinds := hcoh.2.2
  have hcc : ∀ j, rowCount (pr.filter (fun e => e.1 ≠ uid)) j
      + (if ur.reactionType == j then 1 else 0) = rowCount pr j :=
    fun j => rowCount_filter hprnd hur j
  have hgetA : getR r0 ur.reactionType = (rowCount pr ur.reactionType : Int) :=
    rcoh_getRx hcoh ur.reactionType
  refine ⟨keysNodup_setA _ _ hr0nd, ?_, ?_⟩
  · intro e he
    rcases mem_setA_elim he with rfl | ⟨he0, hek⟩
    · have h1 := hcc ur.reactionType
      simp only [beq_self_eq_true, if_true] at h1
      dsimp only
      rw [hgetA]
      omega
    · have h1 := hcc e.1
      have hK : (ur.reactionType == e.1) = false :=
        beq_eq_false_iff_ne.mpr (fun hq => hek hq.symm)
      simp only [hK, Bool.false_eq_true, if_false, add_zero] at h1
      rw [hvals e he0]
      omega
  · intro row hrow
    exact (mem_keys_setA _ _).mpr (Or.inl (hkinds row (List.mem_of_mem_filter hrow)))

theorem rinv_saveReaction (s : Store) (pid uid : String) (k : Nat) (now : Int)
    (hinv : RInv s) : RInv (saveReaction s pid uid k now).2 := by
  have hpk := hinv.1
  have hrk := hinv.2.1
  have hin := hinv.2.2.1
  have horph := hinv.2.2.2.1
  have hcohs := hinv.2.2.2.2
  unfold saveReaction
  cases hl : s.posts.lookup pid with
  | none => exact hinv
  | some post =>
    dsimp only
    by_cases hval : k ≤ 0 ∨ 6 < k
    · rw [if_pos hval]
      exact hinv
    · rw [if_neg hval]
      have hcoh : RCoh (rowsFor s pid) post.reactions :=
        hcohs (pid, post) (mem_of_lookup_eq_some hl)
      have hprnd : ((rowsFor s pid).map Prod.fst).Nodup := rinv_rows_nodup hinv pid
      have hpostmem : pid ∈ s.posts.map Prod.fst :=
        List.mem_map.mpr ⟨(pid, post), mem_of_lookup_eq_some hl, rfl⟩
      cases hur : (rowsFor s pid).lookup uid with
      | some existing =>
        dsimp only
        by_cases hsame : existing.reactionType = k
        · rw [if_pos hsame]
          refine ⟨hpk, keysNodup_setA _ _ hrk, ?_, ?_, ?_⟩
          · intro e he
            dsimp only at he
            rcases mem_setA_elim he with rfl | ⟨hm, _⟩
            · exact hprnd
            · exact hin e hm
          · intro e he hne
            dsimp only at he ⊢
            rcases mem_setA_elim he with rfl | ⟨hm, _⟩
            · exact hpostmem
            · exact horph e hm hne
          · intro kv hkv
            dsimp only at hkv ⊢
            have hrows : ∀ q, ((setA s.reactions pid (rowsFor s pid)).lookup q).getD []
                = rowsFor s q := by
              intro q
              rw [lookup_setA]
              split
              · next hq =>
                subst hq
                rfl
              · rfl
            show RCoh (((setA s.reactions pid (rowsFor s pid)).lookup kv.1).getD [])
              kv.2.reactions
            rw [hrows kv.1]
            exact hcohs kv hkv
        · rw [if_neg hsame]
          dsimp only
          have hcntA : 1 ≤ rowCount (rowsFor s pid) existing.reactionType :=
            rowCount_pos_of_mem (mem_of_lookup_eq_some hur)
          have holdc : getR (post.reactions.getD []) existing.reactionType
              = (rowCount (rowsFor s pid) existing.reactionType : Int) :=
            rcoh_getRx hcoh existing.reactionType
          have hpos : 0 < getR (post.reactions.getD []) existing.reactionType := by
            rw [holdc]
            exact_mod_cast hcntA
          rw [if_pos hpos]
          exact rinv_reaction_update _ _ hinv hl
            (keysNodup_setA _ _ hprnd)
            (rcoh_switch hprnd hcoh hur hsame now)
      | none =>
        dsimp only
        exact rinv_reaction_update _ _ hinv hl
          (keysNodup_setA _ _ hprnd)
          (rcoh_new hcoh hur k now)

theorem rinv_deleteReaction (s : Store) (pid uid : String) (k : Nat)
    (hinv : RInv s) : RInv (deleteReaction s pid uid k).2 := by
  unfold deleteReaction
  cases hl : s.posts.lookup pid with
  | none => exact hinv
  | some post =>
    dsimp only
    cases hlr : s.reactions.lookup pid with
    | none => exact hinv
    | some pr =>
      dsimp only
      cases hur : pr.lookup uid with
      | none => exact hinv
      | some ur =>
        dsimp only
        by_cases hkk : ur.reactionType ≠ k
        · rw [if_pos hkk]
          exact hinv
        · rw [if_neg hkk]
          push_neg at hkk
          have hrowspr : rowsFor s pid = pr := by
            unfold rowsFor
            rw [hlr]
            rfl
          have hcoh : RCoh pr post.reactions := by
            rw [← hrowspr]
            exact hinv.2.2.2.2 (pid, post) (mem_of_lookup_eq_some hl)
          have hprnd : (pr.map Prod.fst).Nodup := by
            rw [← hrowspr]
            exact rinv_rows_nodup hinv pid
          have hndfil : ((pr.filter (fun e => e.1 ≠ uid)).map Prod.fst).Nodup :=
            hprnd.sublist ((List.filter_sublist _).map Prod.fst)
          cases hpr : post.reactions with
          | none =>
            exfalso
            have := hcoh.2.2 (uid, ur) (mem_of_lookup_eq_some hur)
            rw [hpr] at this
            simp at this
          | some m =>
            dsimp only
            have hcoh' : RCoh pr (some m) := by
              rw [← hpr]
              exact hcoh
            have hget : getR m k = (rowCount pr k : Int) := by
              have := rcoh_getRx hcoh' k
              simpa using this
            have hcnt : 1 ≤ rowCount pr k := by
              have := rowCount_pos_of_mem (mem_of_lookup_eq_some hur)
              rwa [hkk] at this
            have hpos : 0 < getR m k := by
              rw [hget]
              exact_mod_cast hcnt
            rw [if_pos hpos]
            have hdel := rcoh_delete hprnd hcoh' hur
            rw [hkk] at hdel
            exact rinv_reaction_update _ _ hinv hl hndfil hdel

theorem rinv_of_reachR {s : Store} (h : ReachR s) : RInv s := by
  induction h with
  | empty => exact rinv_empty
  | save post _ hcoh ih => exact rinv_savePost ih hcoh
  | delete pid uid _ ih => exact rinv_deletePost _ pid uid ih
  | react pid uid k now _ ih => exact rinv_saveReaction _ pid uid k now ih
  | unreact pid uid k _ ih => exact rinv_deleteReaction _ pid uid k ih

/-- C3 (amended): in every store state reachable from the empty store by
SavePost, DeletePost, SaveReaction and DeleteReaction operations — where
every SavePost carries a reaction-count map that agrees kind-by-kind
with the ledger rows currently stored for its post ID (in particular an
all-zero map for a fresh post) — for every existing post the sum of its
per-kind reaction counts equals the number of (post,user) reaction
ledger entries stored for that post. -/
theorem c3_reaction_sum_invariant {s : Store} (hreach : ReachR s) :
    ∀ pid post, s.posts.lookup pid = some post →
      sumReactions post.reactions = ((rowsFor s pid).length : Int) := by
  intro pid post hl
  exact sumReactions_eq_length
    ((rinv_of_reachR hreach).2.2.2.2 (pid, post) (mem_of_lookup_eq_some hl))

/-- C3 witness: in the concrete reachable store where `"alice"` has
liked `postPlain`, the stored post's reaction sum (1) equals its ledger
row count. -/
theorem c3_reaction_sum_invariant_witness :
    sumReactions postPlainLiked.reactions
      = ((rowsFor (saveReaction (savePost emptyStore postPlain) "p1" "alice" 1 10).2
          "p1").length : Int) := by
  have hr : ReachR (saveReaction (savePost emptyStore postPlain) "p1" "alice" 1 10).2 :=
    ReachR.react "p1" "alice" 1 10 (ReachR.save postPlain ReachR.empty (by decide))
  exact c3_reaction_sum_invariant hr "p1" postPlainLiked (by decide)

/-- C3 counterexample: a single unrestricted SavePost from the empty
store stores a post whose reaction map sums to 5 while its ledger holds
no row, so the claimed invariant fails under arbitrary SavePost inputs. -/
theorem c3_counterexample :
    ReachOps (savePost emptyStore postPreloaded) ∧
    (savePost emptyStore postPreloaded).posts.lookup "p1" = some postPreloaded ∧
    sumReactions postPreloaded.reactions = 5 ∧
    ((rowsFor (savePost emptyStore postPreloaded) "p1").length : Int) = 0 := by
  exact ⟨ReachOps.save postPreloaded ReachOps.empty, by decide, by decide, by decide⟩

/-- C4: in a store satisfying the reaction-ledger invariant, when a user
currently has a reaction of kind `A = ur.reactionType` on an existing
post, SaveReaction (AddReaction) with a different valid kind `b` leaves
every post's reaction counts non-negative and, in the same single step,
decrements the count of `A` by exactly 1 and increments the count of `b`
by exactly 1 on that post. -/
theorem c4_reaction_switch {s : Store} {pid uid : String} {post : Post}
    {ur : UserReaction} {b : Nat} (now : Int)
    (hinv : RInv s)
    (hpost : s.posts.lookup pid = some post)
    (hur : (rowsFor s pid).lookup uid = some ur)
    (hb1 : 1 ≤ b) (hb2 : b ≤ 6)
    (hne : ur.reactionType ≠ b) :
    (∀ kv ∈ (saveReaction s pid uid b now).2.posts, ∀ j, 0 ≤ getRx kv.2.reactions j) ∧
    ∃ post', (saveReaction s pid uid b now).2.posts.lookup pid = some post' ∧
      getRx post'.reactions ur.reactionType = getRx post.reactions ur.reactionType - 1 ∧
      getRx post'.reactions b = getRx post.reactions b + 1 := by
  have hval : ¬(b ≤ 0 ∨ 6 < b) := by omega
  have hcoh : RCoh (rowsFor s pid) post.reactions :=
    hinv.2.2.2.2 (pid, post) (mem_of_lookup_eq_some hpost)
  have hcnt : 1 ≤ rowCount (rowsFor s pid) ur.reactionType :=
    rowCount_pos_of_mem (mem_of_lookup_eq_some hur)
  have hpos : 0 < getR (post.reactions.getD []) ur.reactionType := by
    have h := rcoh_getRx hcoh ur.reactionType
    unfold getRx at h
    rw [h]
    exact_mod_cast hcnt
  constructor
  · intro kv hkv j
    exact rcoh_getRx_nonneg
      ((rinv_saveReaction s pid uid b now hinv).2.2.2.2 kv hkv) j
  · unfold saveReaction
    rw [hpost]
    dsimp only
    rw [if_neg hval, hur]
    dsimp only
    rw [if_neg hne, if_pos hpos]
    dsimp only
    refine ⟨_, lookup_setA_self _ _ _, ?_, ?_⟩
    · unfold getRx
      simp only [Option.getD_some]
      rw [getR_setA, if_neg hne, getR_setA, if_pos rfl]
    · unfold getRx
      simp only [Option.getD_some]
      rw [getR_setA, if_pos rfl, getR_setA, if_neg (fun h => hne h.symm)]

/-- C4 witness: in the concrete reachable store where `"alice"` has a
like (kind 1) on `postPlain`, switching to love (kind 2) yields the
stored post `postPlainSwitched`, whose like count dropped by exactly 1
and love count rose by exactly 1. -/
theorem c4_reaction_switch_witness :
    getRx postPlainSwitched.reactions 1 = getRx postPlainLiked.reactions 1 - 1 ∧
    getRx postPlainSwitched.reactions 2 = getRx postPlainLiked.reactions 2 + 1 := by
  have hinv : RInv (saveReaction (savePost emptyStore postPlain) "p1" "alice" 1 10).2 :=
    rinv_saveReaction _ _ _ _ _ (rinv_savePost rinv_empty (by decide))
  obtain ⟨hnn, p', hp', h1, h2⟩ :=
    @c4_reaction_switch (saveReaction (savePost emptyStore postPlain) "p1" "alice" 1 10).2
      "p1" "alice" postPlainLiked ⟨"alice", 1, 10⟩ 2 11 hinv
      (by decide) (by decide) (by decide) (by decide) (by decide)
  have hps : (saveReaction (saveReaction (savePost emptyStore postPlain) "p1" "alice" 1 10).2
      "p1" "alice" 2 11).2.posts.lookup "p1" = some postPlainSwitched := by decide
  rw [hp'] at hps
  cases hps
  exact ⟨h1, h2⟩

/-- C6: SaveReaction (AddReaction) with a reaction kind outside the
valid range 1..6 on an existing post returns InvalidReaction and leaves
the whole store — reaction counts and ledger included — unchanged; if
the referenced post does not exist it returns NotFound instead (also
leaving the store unchanged). -/
theorem c6_invalid_reaction (s : Store) (pid uid : String) (k : Nat) (now : Int) :
    ((∃ p, s.posts.lookup pid = some p) → ¬(1 ≤ k ∧ k ≤ 6) →
      saveReaction s pid uid k now = (.error .invalidReaction, s)) ∧
    (s.posts.lookup pid = none →
      saveReaction s pid uid k now = (.error .postNotFound, s)) := by
  constructor
  · rintro ⟨p, hp⟩ hk
    unfold saveReaction
    rw [hp]
    dsimp only
    rw [if_pos (by omega)]
  · intro hp
    unfold saveReaction
    rw [hp]

/-- C6 witness: reacting with kind 9 to the stored post yields
InvalidReaction without touching the store, and reacting to a missing
post yields NotFound. -/
theorem c6_invalid_reaction_witness :
    saveReaction (savePost emptyStore postPlain) "p1" "alice" 9 0
      = (.error .invalidReaction, savePost emptyStore postPlain) ∧
    saveReaction (savePost emptyStore postPlain) "missing" "alice" 3 0
      = (.error .postNotFound, savePost emptyStore postPlain) :=
  ⟨(c6_invalid_reaction (savePost emptyStore postPlain) "p1" "alice" 9 0).1
      ⟨postPlain, by decide⟩ (by decide),
    (c6_invalid_reaction (savePost emptyStore postPlain) "missing" "alice" 3 0).2 (by decide)⟩

/-- C8: on an index-consistent store, DeletePost by a non-owner returns
PermissionDenied with the store unchanged, so the post stays retrievable
via GetPost; DeletePost by the owner succeeds, after which GetPost on
that ID yields NotFound and the post's ledger entries and index entries
are all removed; DeletePost on a nonexistent postID returns NotFound. -/
theorem c8_delete_post (s : Store) (pid uid : String) (hinv : IdxInv s) :
    (s.posts.lookup pid = none → deletePost s pid uid = (.error .postNotFound, s)) ∧
    (∀ post, s.posts.lookup pid = some post → post.userID ≠ uid →
      deletePost s pid uid = (.error .permissionDenied, s) ∧ getPost s pid = .ok post) ∧
    (∀ post, s.posts.lookup pid = some post → post.userID = uid →
      (deletePost s pid uid).1 = .ok () ∧
      getPost (deletePost s pid uid).2 pid = .error .postNotFound ∧
      rowsFor (deletePost s pid uid).2 pid = [] ∧
      (∀ u, pid ∉ getL (deletePost s pid uid).2.userPosts u) ∧
      (∀ t, pid ∉ getL (deletePost s pid uid).2.tagPosts t)) := by
  obtain ⟨hpk, huk, htk, hui, hti, hun, htn⟩ := hinv
  refine ⟨?_, ?_, ?_⟩
  · intro hp
    unfold deletePost
    rw [hp]
  · intro post hp hne
    constructor
    · unfold deletePost
      rw [hp]
      dsimp only
      rw [if_pos hne]
    · unfold getPost
      rw [hp]
  · intro post hp huid
    have heq : deletePost s pid uid = (.ok (),
        { posts := s.posts.filter (fun e => e.1 ≠ pid)
          reactions := s.reactions.filter (fun e => e.1 ≠ pid)
          userPosts := setA s.userPosts uid ((getL s.userPosts uid).erase pid)
          tagPosts := removeTagRefs s.tagPosts pid post.tags }) := by
      unfold deletePost
      rw [hp]
      dsimp only
      rw [if_neg (fun h => h huid)]
    rw [heq]
    refine ⟨rfl, ?_, ?_, ?_, ?_⟩
    · unfold getPost
      dsimp only
      rw [lookup_filter_ne, if_pos rfl]
    · unfold rowsFor
      dsimp only
      rw [lookup_filter_ne, if_pos rfl]
      rfl
    · intro u
      dsimp only
      rw [getL_setA]
      split
      · next hu =>
        exact fun hm => (((hun uid).mem_erase_iff).mp hm).1 rfl
      · next hu =>
        intro hm
        rcases (hui u pid).mp hm with ⟨p, hp2, hpu⟩
        rw [hp] at hp2
        cases hp2
        exact hu (hpu ▸ huid)
    · intro t
      dsimp only
      rw [removeTagRefs_getL _ _ _ _ htn]
      split
      · next ht =>
        exact fun hm => (((htn t).mem_erase_iff).mp hm).1 rfl
      · next ht =>
        intro hm
        rcases (hti t pid).mp hm with ⟨p, hp2, hpt⟩
        rw [hp] at hp2
        cases hp2
        exact ht hpt

/-- C8 witness: in the concrete one-post store, deleting as `"eve"`
fails with PermissionDenied leaving the post in place, while deleting as
the owner `"u1"` succeeds, makes GetPost return NotFound and clears the
index entry for tag `"a"`. -/
theorem c8_delete_post_witness :
    (deletePost (savePost emptyStore postPlain) "p1" "eve"
      = (.error .permissionDenied, savePost emptyStore postPlain)) ∧
    getPost (savePost emptyStore postPlain) "p1" = .ok postPlain ∧
    getPost (deletePost (savePost emptyStore postPlain) "p1" "u1").2 "p1"
      = .error .postNotFound ∧
    "p1" ∉ getL (deletePost (savePost emptyStore postPlain) "p1" "u1").2.tagPosts "a" := by
  have hinv : IdxInv (savePost emptyStore postPlain) :=
    idxInv_savePost_new idxInv_empty (by decide) (by decide)
  have h := c8_delete_post (savePost emptyStore postPlain) "p1" "eve" hinv
  have h2 := c8_delete_post (savePost emptyStore postPlain) "p1" "u1" hinv
  refine ⟨(h.2.1 postPlain (by decide) (by decide)).1,
    (h.2.1 postPlain (by decide) (by decide)).2,
    (h2.2.2 postPlain (by decide) (by decide)).2.1,
    (h2.2.2 postPlain (by decide) (by decide)).2.2.2.2 "a"⟩

/-- C7: GetTrendingPosts returns exactly the public posts, sorted by
descending engagement score (sum of reaction counts + comments +
shares), truncated to the first `limit` posts when `limit` is positive
and unlimited when `limit ≤ 0`. -/
theorem c7_trending (s : Store) (limit : Int) :
    (∀ p ∈ getTrendingPosts s limit, p.visibility = "public") ∧
    (getTrendingPosts s limit).Sorted (fun a b => engagement b ≤ engagement a) ∧
    ∃ l : List Post, l.Perm (publicPosts s) ∧
      l.Sorted (fun a b => engagement b ≤ engagement a) ∧
      getTrendingPosts s limit = (if 0 < limit then l.take limit.toNat else l) := by
  haveI htot : IsTotal Post (fun a b => engagement b ≤ engagement a) :=
    ⟨fun a b => le_total (engagement b) (engagement a)⟩
  haveI htra : IsTrans Post (fun a b => engagement b ≤ engagement a) :=
    ⟨fun _ _ _ h1 h2 => le_trans h2 h1⟩
  have hsorted : (List.insertionSort (fun a b => engagement b ≤ engagement a)
      (publicPosts s)).Sorted (fun a b => engagement b ≤ engagement a) :=
    List.sorted_insertionSort _ _
  have hperm := List.perm_insertionSort
    (fun a b => engagement b ≤ engagement a) (publicPosts s)
  have heq : getTrendingPosts s limit
      = (if 0 < limit
        then (List.insertionSort (fun a b => engagement b ≤ engagement a)
          (publicPosts s)).take limit.toNat
        else List.insertionSort (fun a b => engagement b ≤ engagement a)
          (publicPosts s)) := by
    unfold getTrendingPosts
    dsimp only
    by_cases hp : 0 < limit
    · rw [if_pos hp]
      split
      · rfl
      · next hc =>
        have hlen : (List.insertionSort (fun a b => engagement b ≤ engagement a)
            (publicPosts s)).length ≤ limit.toNat := by
          rcases not_and_or.mp hc with h | h
          · exact absurd hp h
          · omega
        rw [List.take_of_length_le hlen]
    · rw [if_neg hp, if_neg (fun hc => hp hc.1)]
  refine ⟨?_, ?_, ?_⟩
  · intro p hp
    have hmem : p ∈ List.insertionSort (fun a b => engagement b ≤ engagement a)
        (publicPosts s) := by
      rw [heq] at hp
      split at hp
      · exact List.mem_of_mem_take hp
      · exact hp
    have : p ∈ publicPosts s := hperm.mem_iff.mp hmem
    have := List.of_mem_filter this
    simpa using this
  · rw [heq]
    split
    · exact hsorted.sublist (List.take_sublist _ _)
    · exact hsorted
  · exact ⟨_, hperm, hsorted, heq⟩

theorem paginate_eq_drop_take {α : Type} (l : List α) {limit offset : Int}
    (hl : 0 < limit) (ho : 0 ≤ offset) :
    paginate limit offset l = (l.drop offset.toNat).take limit.toNat := by
  unfold paginate
  rw [if_pos hl]
  split
  · next hlt =>
    rw [List.drop_take]
    rw [List.take_eq_take]
    rw [List.length_drop]
    omega
  · next hge =>
    have hlen : l.length ≤ offset.toNat := by omega
    rw [List.drop_eq_nil_of_le hlen, List.take_nil]

/-- C5 (amended): when `limit ≤ 0` the pagination step of ListPosts is
skipped entirely and the whole sorted result is returned regardless of
offset; when `limit > 0` the offset is applied first and then the limit,
an offset at or past the result size gives the empty list, and over 8
matching posts the page `limit=3, offset=3` is disjoint from the page
`limit=3, offset=0`. -/
theorem c5_pagination (s : Store) (f : PostFilter) :
    (f.limit ≤ 0 → listPosts s f = sortPosts f (listCandidates s f)) ∧
    (0 < f.limit → ((sortPosts f (listCandidates s f)).length : Int) ≤ f.offset →
      listPosts s f = []) ∧
    (0 < f.limit → 0 ≤ f.offset →
      listPosts s f
        = ((sortPosts f (listCandidates s f)).drop f.offset.toNat).take f.limit.toNat) ∧
    ((sortPosts f (listCandidates s f)).Nodup →
      (sortPosts f (listCandidates s f)).length = 8 →
      f.limit = 3 → f.offset = 0 →
      ∀ p ∈ listPosts s f, p ∉ listPosts s { f with offset := 3 }) := by
  refine ⟨?_, ?_, ?_, ?_⟩
  · intro h
    unfold listPosts paginate
    rw [if_neg (by omega)]
  · intro h1 h2
    unfold listPosts paginate
    rw [if_pos h1, if_neg (by omega)]
  · intro h1 h2
    exact paginate_eq_drop_take _ h1 h2
  · intro hnd hlen hlim hoff p hp hp3
    obtain ⟨fu, ft, ftr, fv, fl, fo, fsb, fso⟩ := f
    dsimp only at hlim hoff
    subst hlim
    subst hoff
    dsimp only at hp3
    have e1 : listPosts s ⟨fu, ft, ftr, fv, 3, 0, fsb, fso⟩
        = (((sortPosts ⟨fu, ft, ftr, fv, 3, 0, fsb, fso⟩
            (listCandidates s ⟨fu, ft, ftr, fv, 3, 0, fsb, fso⟩)).drop 0).take 3) :=
      paginate_eq_drop_take _ (by dsimp only; omega) (by dsimp only; omega)
    have hsame : sortPosts (⟨fu, ft, ftr, fv, 3, 3, fsb, fso⟩ : PostFilter)
        (listCandidates s ⟨fu, ft, ftr, fv, 3, 3, fsb, fso⟩)
        = sortPosts (⟨fu, ft, ftr, fv, 3, 0, fsb, fso⟩ : PostFilter)
          (listCandidates s ⟨fu, ft, ftr, fv, 3, 0, fsb, fso⟩) := rfl
    have e2 : listPosts s ⟨fu, ft, ftr, fv, 3, 3, fsb, fso⟩
        = (((sortPosts (⟨fu, ft, ftr, fv, 3, 3, fsb, fso⟩ : PostFilter)
            (listCandidates s ⟨fu, ft, ftr, fv, 3, 3, fsb, fso⟩)).drop 3).take 3) :=
      paginate_eq_drop_take _ (by dsimp only; omega) (by dsimp only; omega)
    rw [hsame] at e2
    rw [e1, List.drop_zero] at hp
    rw [e2] at hp3
    exact List.disjoint_take_drop hnd (le_refl 3) hp (List.mem_of_mem_take hp3)

/-- C5 counterexample: with `limit = 0` and `offset = 5` over a two-post
store, ListPosts returns both posts — pagination is skipped entirely —
instead of the empty remaining slice from offset 5 that the claim
dictates. -/
theorem c5_counterexample :
    fltSkip.limit = 0 ∧ fltSkip.offset = 5 ∧
    (listPosts storeDesc fltSkip).length = 2 :=
  ⟨rfl, rfl, by decide⟩

/-- C5 witness: over the eight-post store, the post on page
`limit=3, offset=0` is not on page `limit=3, offset=3`. -/
theorem c5_pagination_witness :
    simplePost "0" 0 ∈ listPosts storeEight fltPage ∧
    simplePost "0" 0 ∉ listPosts storeEight { fltPage with offset := 3 } := by
  have h := (c5_pagination storeEight fltPage).2.2.2 (by decide) (by decide) rfl rfl
  exact ⟨by decide, h (simplePost "0" 0) (by decide)⟩

/-- C9 (amended): when a non-empty sort field is requested, ListPosts
sorts its result by the requested field among created_at, updated_at,
reactions (the sum of all per-kind counts), comments and shares, with
any other non-empty field falling back to created_at; the order is
ascending unless `"desc"` is requested.  When the sort field is empty,
no sorting is applied at all. -/
theorem c9_sorting (s : Store) (f : PostFilter) :
    (f.sortBy = "" → sortPosts f (listCandidates s f) = listCandidates s f) ∧
    (f.sortBy ≠ "" →
      (sortPosts f (listCandidates s f)).Perm (listCandidates s f) ∧
      (f.sortOrder = "desc" →
        (sortPosts f (listCandidates s f)).Sorted
          (fun a b => sortKey f.sortBy b ≤ sortKey f.sortBy a)) ∧
      (f.sortOrder ≠ "desc" →
        (sortPosts f (listCandidates s f)).Sorted
          (fun a b => sortKey f.sortBy a ≤ sortKey f.sortBy b))) ∧
    (f.sortBy ∉ ["created_at", "updated_at", "reactions", "comments", "shares"] →
      ∀ p, sortKey f.sortBy p = p.createdAt) ∧
    listPosts s f = paginate f.limit f.offset (sortPosts f (listCandidates s f)) := by
  refine ⟨?_, ?_, ?_, rfl⟩
  · intro h
    unfold sortPosts
    rw [if_pos h]
  · intro h
    haveI hta : IsTotal Post (fun a b => sortKey f.sortBy a ≤ sortKey f.sortBy b) :=
      ⟨fun a b => le_total _ _⟩
    haveI htra : IsTrans Post (fun a b => sortKey f.sortBy a ≤ sortKey f.sortBy b) :=
      ⟨fun _ _ _ h1 h2 => le_trans h1 h2⟩
    haveI htd : IsTotal Post (fun a b => sortKey f.sortBy b ≤ sortKey f.sortBy a) :=
      ⟨fun a b => le_total _ _⟩
    haveI htrd : IsTrans Post (fun a b => sortKey f.sortBy b ≤ sortKey f.sortBy a) :=
      ⟨fun _ _ _ h1 h2 => le_trans h2 h1⟩
    refine ⟨?_, ?_, ?_⟩
    · unfold sortPosts
      rw [if_neg h]
      split
      · exact List.perm_insertionSort _ _
      · exact List.perm_insertionSort _ _
    · intro hd
      unfold sortPosts
      rw [if_neg h, if_pos hd]
      exact List.sorted_insertionSort _ _
    · intro hd
      unfold sortPosts
      rw [if_neg h, if_neg hd]
      exact List.sorted_insertionSort _ _
  · intro h p
    unfold sortKey
    split <;> first
      | rfl
      | (rename_i heq
         rw [heq] at h
         simp at h)

/-- C9 counterexample: with an empty sort field, ListPosts applies no
sorting at all — over two posts inserted in decreasing creation order
the result is in store order `[5, 3]`, not ascending `created_at` order
as the claimed fallback dictates. -/
theorem c9_counterexample :
    fltEmpty.sortBy = "" ∧
    (listPosts storeDesc fltEmpty).map (fun p => p.createdAt) = [5, 3] ∧
    ¬ (listPosts storeDesc fltEmpty).Sorted (fun a b => a.createdAt ≤ b.createdAt) :=
  ⟨rfl, by decide, by decide⟩

/-- C9 witness: sorting the two-post store by `created_at` descending
yields a result sorted by descending creation time. -/
theorem c9_sorting_witness :
    (sortPosts fltDesc (listCandidates storeDesc fltDesc)).Sorted
      (fun a b => sortKey fltDesc.sortBy b ≤ sortKey fltDesc.sortBy a) := by
  have h := (c9_sorting storeDesc fltDesc).2.1 (by decide)
  exact h.2.1 rfl

/-- C1 divergence exhibit: with the two-tag filter `["a", "b"]` and no
user filter, ListPosts returns both stored posts even though `"p1"`
does not carry tag `"b"` — the candidate loop tests membership in the
stale candidate map, so multi-tag filters do not implement AND
semantics. -/
theorem c1_tag_filter_divergence :
    fltTags.userID = "" ∧ fltTags.tags = ["a", "b"] ∧
    (listPosts storeTags fltTags).map (fun p => p.id) = ["p1", "p2"] ∧
    postTagA ∈ listPosts storeTags fltTags ∧ "b" ∉ postTagA.tags :=
  ⟨rfl, rfl, by decide, by decide, by decide⟩

/-- C10: CreatePost rejects a post with an empty UserID without calling
the store; otherwise it saves the post after assigning the fresh ID only
when the given ID was empty, stamping CreatedAt and UpdatedAt with the
current time, replacing a nil reactions map with an empty one, and
returns the saved post's ID. -/
theorem c10_create_post (s : Store) (post : Post) (freshID : String) (now : Int) :
    (post.userID = "" → createPost s post freshID now = (.error .userIDRequired, s)) ∧
    (post.userID ≠ "" → ∃ saved : Post,
      createPost s post freshID now = (.ok saved.id, savePost s saved) ∧
      saved.id = (if post.id = "" then freshID else post.id) ∧
      saved.createdAt = now ∧ saved.updatedAt = now ∧
      saved.reactions ≠ none ∧
      (post.reactions ≠ none → saved.reactions = post.reactions) ∧
      saved.userID = post.userID ∧ saved.content = post.content ∧
      saved.tags = post.tags) := by
  constructor
  · intro h
    unfold createPost
    rw [if_pos h]
  · intro h
    unfold createPost
    rw [if_neg h]
    by_cases hid : post.id = ""
    · rw [if_pos hid]
      dsimp only
      by_cases hre : post.reactions = none
      · rw [if_pos hre]
        refine ⟨_, rfl, ?_, rfl, rfl, ?_, ?_, rfl, rfl, rfl⟩
        · rw [if_pos hid]
        · simp
        · intro hc
          exact absurd hre hc
      · rw [if_neg hre]
        refine ⟨_, rfl, ?_, rfl, rfl, hre, fun _ => rfl, rfl, rfl, rfl⟩
        rw [if_pos hid]
    · rw [if_neg hid]
      dsimp only
      by_cases hre : post.reactions = none
      · rw [if_pos hre]
        refine ⟨_, rfl, ?_, rfl, rfl, ?_, ?_, rfl, rfl, rfl⟩
        · rw [if_neg hid]
        · simp
        · intro hc
          exact absurd hre hc
      · rw [if_neg hre]
        refine ⟨_, rfl, ?_, rfl, rfl, hre, fun _ => rfl, rfl, rfl, rfl⟩
        rw [if_neg hid]

/-- C10 witness: creating a post with an empty ID and empty UserID is
rejected with the store untouched, while `postPlain` (non-empty ID,
`nil` reactions map) is saved with its own ID returned, both timestamps
set to `now = 7`, and an empty (non-nil) reactions map. -/
theorem c10_create_post_witness :
    createPost emptyStore { postPlain with userID := "" } "fresh" 7
      = (.error .userIDRequired, emptyStore) ∧
    ∃ saved : Post,
      createPost emptyStore postPlain "fresh" 7 = (.ok saved.id, savePost emptyStore saved) ∧
      saved.id = "p1" ∧ saved.createdAt = 7 ∧ saved.reactions ≠ none := by
  constructor
  · exact (c10_create_post emptyStore { postPlain with userID := "" } "fresh" 7).1 rfl
  · obtain ⟨saved, he, hi, hc, hu, hr, _⟩ :=
      (c10_create_post emptyStore postPlain "fresh" 7).2 (by decide)
    refine ⟨saved, he, ?_, hc, hr⟩
    rw [hi]
    decide

/-- C7 witness: on the concrete store with engagement scores 33 and 11,
every trending post is public (instantiated at `postMild`) and the
unlimited trending list is sorted by descending engagement. -/
theorem c7_trending_witness :
    postMild.visibility = "public" ∧
    (getTrendingPosts storeTrend 0).Sorted (fun a b => engagement b ≤ engagement a) := by
  have h := c7_trending storeTrend 0
  exact ⟨h.1 postMild (by decide), h.2.1⟩
